import Mathlib

/-!
Verification development for the multi-account OAuth storage / rotation core.

The definitions below are a shallow embedding of the TypeScript sources:
  - storage.ts (`normalizeAccountStorage`, `deduplicateAccountsByKey`,
    `deduplicateAccountsByEmail`, `migrateV1ToV3`, `saveAccounts`,
    `importAccounts`, `formatStorageErrorHint`, `clampIndex`,
    `extractActiveKey`, `toAccountKey`, `selectNewestAccount`)
  - utils/circuit breaker module (`CircuitBreaker`, `getCircuitBreaker`)
  - lib/auth-rate-limit.ts (`canAttemptAuth`, `recordAuthAttempt`,
    `getAttemptsRemaining`)
  - lib/parallel-probe.ts (`probeAccountsInParallel`)

Modelling conventions:
  - JavaScript numbers that the code treats as timestamps or indices are
    modelled as `Int` (the schema only ever stores integers there); a JSON
    field that is absent, non-numeric or non-finite is modelled as `none`
    (every use in the source guards with `typeof x === "number" &&
    Number.isFinite(x)` or with `|| 0`, so the conflation is faithful).
  - A raw JSON object is modelled by the structure `Raw`; array elements
    that are not objects are `RawEntry.junk`.
  - Mutation of in-memory state is modelled by explicit state passing;
    `throw` is modelled with `Except` / an error component.
  - Filesystem effects of `saveAccounts` are modelled over an abstract
    store `FS = String → Option String` with an injectable behaviour
    record (`FsBehavior`) standing for the outcomes of the individual
    `fs` calls, as in the spec's fault-injection scenario.
-/

namespace OCAuth

/-- Model families.  The defining module (`prompts/codex.ts`) is not among
the provided sources; the five families are taken from the literal
`activeIndexByFamily` record built in `migrateV1ToV3` (storage.ts lines
399-405), which enumerates every known family. -/
inductive Family where
  | gpt52codex
  | codexMax
  | codex
  | gpt52
  | gpt51
deriving DecidableEq, Repr

def MODEL_FAMILIES : List Family :=
  [.gpt52codex, .codexMax, .codex, .gpt52, .gpt51]

/-- A total record with one value per known family: the shape of
`activeIndexByFamily` as produced by `normalizeAccountStorage`, which
assigns an index to every family of `MODEL_FAMILIES`. -/
structure FamMap where
  gpt52codex : Int
  codexMax : Int
  codex : Int
  gpt52 : Int
  gpt51 : Int
deriving DecidableEq, Repr

def FamMap.get (m : FamMap) : Family → Int
  | .gpt52codex => m.gpt52codex
  | .codexMax => m.codexMax
  | .codex => m.codex
  | .gpt52 => m.gpt52
  | .gpt51 => m.gpt51

def FamMap.ofFun (f : Family → Int) : FamMap :=
  ⟨f .gpt52codex, f .codexMax, f .codex, f .gpt52, f .gpt51⟩

/-- An account object as it appears in the storage JSON.  Optional fields
model JSON fields that may be absent (or, for `refreshToken`, non-string).
Fields of the source schema that no modelled operation reads
(`accountIdSource`, `accountLabel`, `lastSwitchReason`, `coolingDownUntil`,
`cooldownReason`, v3 `rateLimitResetTimes`) are omitted; the source treats
them as opaque pass-through data in all the functions modelled here. -/
structure Account where
  accountId : Option String
  email : Option String
  refreshToken : Option String
  addedAt : Option Int
  lastUsed : Option Int
  rateLimitResetTime : Option Int
deriving DecidableEq, Repr

/-- An element of the raw `accounts` array: either a JSON object or
anything else (`junk`). -/
inductive RawEntry where
  | junk
  | acc (a : Account)
deriving DecidableEq, Repr

/-- A raw parsed JSON object handed to `normalizeAccountStorage`.
`version = none` models a missing or non-numeric version; `accounts =
none` models a missing or non-array field; `activeIndex = none` models
missing / non-number / non-finite; `activeIndexByFamily = none` models a
missing or non-object field. -/
structure Raw where
  version : Option Int
  accounts : Option (List RawEntry)
  activeIndex : Option Int
  activeIndexByFamily : Option (Family → Option Int)

/-- The normalized v3 pool returned by `normalizeAccountStorage`. -/
structure StorageV3 where
  version : Int
  accounts : List Account
  activeIndex : Int
  activeIndexByFamily : FamMap
deriving DecidableEq, Repr

/-- JS `String.prototype.trim` / the whitespace class it strips,
restricted to the ASCII range (the schema's identifiers are ASCII).
Implemented over the character list so that it evaluates inside the
kernel. -/
def jsWhitespace (c : Char) : Bool :=
  c = ' ' ∨ c = '\t' ∨ c = '\n' ∨ c = '\r' ∨ c = '\x0b' ∨ c = '\x0c'

def trimS (s : String) : String :=
  ⟨((s.data.dropWhile jsWhitespace).reverse.dropWhile jsWhitespace).reverse⟩

/-- JS `String.prototype.toLowerCase`, restricted to ASCII. -/
def lowerChar (c : Char) : Char :=
  if 'A' ≤ c ∧ c ≤ 'Z' then Char.ofNat (c.toNat + 32) else c

def lowerS (s : String) : String := ⟨s.data.map lowerChar⟩

instance {ε α : Type} [DecidableEq ε] [DecidableEq α] : DecidableEq (Except ε α) :=
  fun x y =>
    match x, y with
    | .ok a, .ok b =>
      if h : a = b then .isTrue (by rw [h])
      else .isFalse (by intro hc; injection hc; contradiction)
    | .error a, .error b =>
      if h : a = b then .isTrue (by rw [h])
      else .isFalse (by intro hc; injection hc; contradiction)
    | .ok _, .error _ => .isFalse fun hc => Except.noConfusion hc
    | .error _, .ok _ => .isFalse fun hc => Except.noConfusion hc

/-- storage.ts `clampIndex`: `length <= 0 ? 0 : max(0, min(index, length-1))`. -/
def clampIndex (index : Int) (length : Nat) : Int :=
  if length ≤ 0 then 0 else max 0 (min index ((length : Int) - 1))

/-- storage.ts `toAccountKey`: `account.accountId || account.refreshToken`
(JS truthiness: the empty string falls through). -/
def toAccountKey (a : Account) : String :=
  match a.accountId with
  | some id => if id = "" then a.refreshToken.getD "" else id
  | none => a.refreshToken.getD ""

/-- storage.ts `extractActiveKey`: trim-aware key of the raw entry at the
given index, `none` for junk / out-of-range entries. -/
def extractActiveKey (entries : List RawEntry) (i : Int) : Option String :=
  if i < 0 then none
  else
    match entries.get? i.toNat with
    | some (.acc a) =>
        let aid : Option String :=
          match a.accountId with
          | some id => if trimS id = "" then none else some id
          | none => none
        let rt : Option String :=
          match a.refreshToken with
          | some r => if trimS r = "" then none else some r
          | none => none
        aid.orElse fun _ => rt
    | _ => none

/-- Decision kernel of storage.ts `selectNewestAccount`: `true` exactly
when the source function returns its `candidate` argument (greater
`lastUsed`, or equal `lastUsed` and `addedAt` at least as large; absent
values read as 0 via `|| 0`). -/
def selectNewestPrefersCandidate (cur cand : Account) : Bool :=
  let curLU := cur.lastUsed.getD 0
  let candLU := cand.lastUsed.getD 0
  if candLU > curLU then true
  else if candLU < curLU then false
  else decide (cand.addedAt.getD 0 ≥ cur.addedAt.getD 0)

/-- Association-list lookup, modelling `Map.get`. -/
def alookup {β : Type} (k : String) : List (String × β) → Option β
  | [] => none
  | (k', v) :: rest => if k' = k then some v else alookup k rest

/-- Association-list update, modelling `Map.set` (replace in place, or
append a new key). -/
def aset {β : Type} (k : String) (v : β) : List (String × β) → List (String × β)
  | [] => [(k, v)]
  | (k', v') :: rest => if k' = k then (k, v) :: rest else (k', v') :: aset k v rest

/-- One iteration of the `deduplicateAccountsByKey` loop over index `i`,
updating the `keyToIndex` map. -/
def keyStep (accounts : List Account) (m : List (String × Nat)) (i : Nat) :
    List (String × Nat) :=
  match accounts.get? i with
  | none => m
  | some a =>
    let k := toAccountKey a
    if k = "" then m
    else
      match alookup k m with
      | none => aset k i m
      | some j =>
        match accounts.get? j with
        | none => m
        | some existing =>
          aset k (if selectNewestPrefersCandidate existing a then i else j) m

def keyFold (accounts : List Account) : List Nat → List (String × Nat) → List (String × Nat)
  | [], m => m
  | i :: is, m => keyFold accounts is (keyStep accounts m i)

/-- The second phase of both dedup functions: keep `accounts[i]` exactly
when `kept i`, preserving order (the source loops `i` from 0 upward and
pushes kept entries). -/
def selectIdx : List Account → Nat → (Nat → Bool) → List Account
  | [], _, _ => []
  | a :: rest, i, kept =>
    if kept i then a :: selectIdx rest (i + 1) kept else selectIdx rest (i + 1) kept

/-- storage.ts `deduplicateAccountsByKey`. -/
def deduplicateAccountsByKey (accounts : List Account) : List Account :=
  let m := keyFold accounts (List.range accounts.length) []
  selectIdx accounts 0 fun i => (m.map Prod.snd).any fun j => j = i

/-- Trimmed non-empty email of an account, `none` when the email is
missing or trims to the empty string (the `email?.trim()` truthiness test
of the source). -/
def emailKey (a : Account) : Option String :=
  match a.email with
  | none => none
  | some e => if trimS e = "" then none else some (trimS e)

/-- Decision kernel of the `isNewer` test inside
`deduplicateAccountsByEmail` (strict tie-break on `addedAt`). -/
def emailPrefersCandidate (ex cand : Account) : Bool :=
  let exLU := ex.lastUsed.getD 0
  let candLU := cand.lastUsed.getD 0
  let exA := ex.addedAt.getD 0
  let candA := cand.addedAt.getD 0
  decide (candLU > exLU ∨ (candLU = exLU ∧ candA > exA))

/-- One iteration of the `deduplicateAccountsByEmail` loop: first
component is `emailToNewestIndex`, second the list of always-kept
no-email indices. -/
def emailStep (accounts : List Account) (st : List (String × Nat) × List Nat)
    (i : Nat) : List (String × Nat) × List Nat :=
  match accounts.get? i with
  | none => st
  | some a =>
    match emailKey a with
    | none => (st.1, i :: st.2)
    | some e =>
      match alookup e st.1 with
      | none => (aset e i st.1, st.2)
      | some j =>
        match accounts.get? j with
        | none => (aset e i st.1, st.2)
        | some ex =>
          if emailPrefersCandidate ex a then (aset e i st.1, st.2) else st

def emailFold (accounts : List Account) :
    List Nat → List (String × Nat) × List Nat → List (String × Nat) × List Nat
  | [], st => st
  | i :: is, st => emailFold accounts is (emailStep accounts st i)

/-- storage.ts `deduplicateAccountsByEmail`. -/
def deduplicateAccountsByEmail (accounts : List Account) : List Account :=
  let st := emailFold accounts (List.range accounts.length) ([], [])
  selectIdx accounts 0 fun i =>
    (st.2.any fun j => j = i) || (st.1.map Prod.snd).any fun j => j = i

/-- The filter of storage.ts lines 448-451: keep raw entries that are
objects with a string, non-blank `refreshToken`. -/
def toValidAccount : RawEntry → Option Account
  | .junk => none
  | .acc a =>
    match a.refreshToken with
    | some r => if trimS r = "" then none else some a
    | none => none

/-- The `findIndex` over the deduplicated array used for active-index
remapping: first index whose `toAccountKey` equals `k`. -/
def findKeyIdx (k : String) : List Account → Option Nat
  | [] => none
  | a :: rest =>
    if toAccountKey a = k then some 0 else (findKeyIdx k rest).map (· + 1)

/-- The body of `normalizeAccountStorage` once the version and the
`accounts` array have been accepted (storage.ts lines 434-503).  Only the
`activeIndexByFamily` component of the v1→v3 migration result is ever
consulted by the source (the output accounts are filtered from the *raw*
array, lines 448-455), and that component maps every known family to the
raw v1 `activeIndex`; the `famRaw` binding reflects this. -/
def normalizeCore (data : Raw) (rawAccounts : List RawEntry) : StorageV3 :=
  let n := rawAccounts.length
  let activeIndexValue : Int := data.activeIndex.getD 0
  let rawActiveIndex := clampIndex activeIndexValue n
  let activeKey := extractActiveKey rawAccounts rawActiveIndex
  let famRaw : Family → Option Int :=
    if data.version = some 1 then fun _ => data.activeIndex
    else data.activeIndexByFamily.getD fun _ => none
  let validAccounts := rawAccounts.filterMap toValidAccount
  let deduplicatedAccounts :=
    deduplicateAccountsByEmail (deduplicateAccountsByKey validAccounts)
  let m := deduplicatedAccounts.length
  let activeIndex : Int :=
    if m = 0 then 0
    else
      match activeKey with
      | some k =>
        match findKeyIdx k deduplicatedAccounts with
        | some j => (j : Int)
        | none => clampIndex rawActiveIndex m
      | none => clampIndex rawActiveIndex m
  let famIdx : Family → Int := fun f =>
    let rawIndex : Int := (famRaw f).getD rawActiveIndex
    let clampedRawIndex := clampIndex rawIndex n
    let familyKey := extractActiveKey rawAccounts clampedRawIndex
    let base := clampIndex rawIndex m
    match familyKey with
    | some k =>
      if 0 < m then
        match findKeyIdx k deduplicatedAccounts with
        | some j => (j : Int)
        | none => base
      else base
    | none => base
  ⟨3, deduplicatedAccounts, activeIndex, FamMap.ofFun famIdx⟩

/-- storage.ts `normalizeAccountStorage` on a JSON object (non-object
inputs are rejected before any field is read and are outside the model).
`none` models the `null` return. -/
def normalizeAccountStorage (data : Raw) : Option StorageV3 :=
  if data.version = some 1 ∨ data.version = some 3 then
    match data.accounts with
    | some rawAccounts => some (normalizeCore data rawAccounts)
    | none => none
  else none

/-- Re-reading a normalized pool as raw JSON (what `JSON.parse` of a
saved v3 file yields). -/
def StorageV3.toRaw (s : StorageV3) : Raw :=
  ⟨some 3, some (s.accounts.map .acc), some s.activeIndex,
    some fun f => some (s.activeIndexByFamily.get f)⟩

/-- The account produced by the v1→v3 migration (storage.ts lines
377-397): the scalar `rateLimitResetTime` becomes a record mapping every
known family to it when it is strictly in the future, else stays absent. -/
structure MigratedAccount where
  accountId : Option String
  email : Option String
  refreshToken : Option String
  addedAt : Option Int
  lastUsed : Option Int
  rateLimitResetTimes : Option (Family → Int)

def migrateAccountV1 (now : Int) (a : Account) : MigratedAccount :=
  { accountId := a.accountId
    email := a.email
    refreshToken := a.refreshToken
    addedAt := a.addedAt
    lastUsed := a.lastUsed
    rateLimitResetTimes :=
      match a.rateLimitResetTime with
      | some t => if t > now then some fun _ => t else none
      | none => none }

/-- A well-typed v1 store (for the standalone `migrateV1ToV3` claim). -/
structure StorageV1 where
  accounts : List Account
  activeIndex : Int

structure MigratedStorage where
  version : Int
  accounts : List MigratedAccount
  activeIndex : Int
  activeIndexByFamily : FamMap

/-- storage.ts `migrateV1ToV3` (`now` is the injected `Date.now()`). -/
def migrateV1ToV3 (now : Int) (v1 : StorageV1) : MigratedStorage :=
  { version := 3
    accounts := v1.accounts.map (migrateAccountV1 now)
    activeIndex := v1.activeIndex
    activeIndexByFamily := FamMap.ofFun fun _ => v1.activeIndex }

/-! ### saveAccounts (storage.ts lines 552-596) -/

/-- The error object thrown by `saveAccounts` (`StorageError`). -/
structure StorageErr where
  code : String
  path : String
  hint : String
deriving DecidableEq, Repr

/-- storage.ts `formatStorageErrorHint`, as a function of the error code
and the platform flag. -/
def formatStorageErrorHint (code : String) (path : String) (isWindows : Bool) : String :=
  if code = "EACCES" ∨ code = "EPERM" then
    if isWindows then
      "Permission denied writing to " ++ path ++
        ". Check antivirus exclusions for this folder. Ensure you have write permissions."
    else
      "Permission denied writing to " ++ path ++
        ". Check folder permissions. Try: chmod 755 ~/.opencode"
  else if code = "EBUSY" then
    "File is locked at " ++ path ++
      ". The file may be open in another program. Close any editors or processes accessing it."
  else if code = "ENOSPC" then
    "Disk is full. Free up space and try again. Path: " ++ path
  else if code = "EEMPTY" then
    "File written but is empty. This may indicate a disk or filesystem issue. Path: " ++ path
  else if isWindows then
    "Failed to write to " ++ path ++
      ". Check folder permissions and ensure path contains no special characters."
  else
    "Failed to write to " ++ path ++ ". Check folder permissions and disk space."

/-- An abstract filesystem: path → file content. -/
def FS : Type := String → Option String

def FS.write (fs : FS) (p c : String) : FS := fun q => if q = p then some c else fs q

def FS.erase (fs : FS) (p : String) : FS := fun q => if q = p then none else fs q

/-- The temp-file name `` `${path}.${Date.now()}.tmp` ``. -/
def tempName (path : String) (now : Int) : String :=
  path ++ "." ++ toString now ++ ".tmp"

/-- Injected outcomes of the individual filesystem calls made by
`saveAccounts`: `mkdirFails`/`statFails`/`renameFails` carry the error
code of a throwing call, and `writeOutcome` is either a throwing write or
the bytes that actually land in the temp file (the spec's fault-injection
scenario writes 0 bytes there). -/
structure FsBehavior where
  mkdirFails : Option String
  writeOutcome : Except String String
  statFails : Option String
  renameFails : Option String

def mkStorageErr (code path : String) (isWindows : Bool) : StorageErr :=
  ⟨code, path, formatStorageErrorHint code path isWindows⟩

/-- storage.ts `saveAccounts`, over the abstract filesystem.  The catch
block always unlinks the temp file (ignoring its own failure) and throws
a `StorageError` built from the original code; detecting a 0-byte temp
file raises code `"EEMPTY"`.  On success the temp file is atomically
renamed onto the target.  Returns the thrown error or unit, paired with
the final filesystem. -/
def saveAccounts (b : FsBehavior) (fs : FS) (path : String) (now : Int)
    (isWindows : Bool) : Except StorageErr Unit × FS :=
  let tempPath := tempName path now
  match b.mkdirFails with
  | some code => (.error (mkStorageErr code path isWindows), fs.erase tempPath)
  | none =>
    match b.writeOutcome with
    | .error code => (.error (mkStorageErr code path isWindows), fs.erase tempPath)
    | .ok written =>
      let fs1 := fs.write tempPath written
      match b.statFails with
      | some code => (.error (mkStorageErr code path isWindows), fs1.erase tempPath)
      | none =>
        if written.length = 0 then
          (.error (mkStorageErr "EEMPTY" path isWindows), fs1.erase tempPath)
        else
          match b.renameFails with
          | some code => (.error (mkStorageErr code path isWindows), fs1.erase tempPath)
          | none => (.ok (), (fs1.erase tempPath).write path written)

/-- The nominal behaviour: every call succeeds and the write lands the
serialized content. -/
def nominalFs (content : String) : FsBehavior := ⟨none, .ok content, none, none⟩

/-! ### Circuit breaker (utils module, lines 57-209) -/

structure CircuitBreakerConfig where
  failureThreshold : Nat
  failureWindowMs : Int
  resetTimeoutMs : Int
  halfOpenMaxAttempts : Nat
deriving DecidableEq, Repr

def DEFAULT_CIRCUIT_BREAKER_CONFIG : CircuitBreakerConfig := ⟨3, 60000, 30000, 1⟩

inductive CircuitState where
  | closed
  | open
  | halfOpen
deriving DecidableEq, Repr

structure CircuitOpenErr where
  message : String
deriving DecidableEq, Repr

structure CircuitBreaker where
  state : CircuitState
  failures : List Int
  lastStateChange : Int
  halfOpenAttempts : Nat
  config : CircuitBreakerConfig
deriving DecidableEq, Repr

/-- The constructor: a fresh breaker is closed with no failures and
`lastStateChange = Date.now()`. -/
def CircuitBreaker.new (config : CircuitBreakerConfig) (now : Int) : CircuitBreaker :=
  ⟨.closed, [], now, 0, config⟩

def CircuitBreaker.pruneFailures (b : CircuitBreaker) (now : Int) : CircuitBreaker :=
  { b with failures := b.failures.filter fun ts => ts ≥ now - b.config.failureWindowMs }

def CircuitBreaker.transitionToOpen (b : CircuitBreaker) (now : Int) : CircuitBreaker :=
  { b with state := .open, lastStateChange := now, halfOpenAttempts := 0 }

def CircuitBreaker.transitionToHalfOpen (b : CircuitBreaker) (now : Int) : CircuitBreaker :=
  { b with state := .halfOpen, lastStateChange := now, halfOpenAttempts := 0 }

def CircuitBreaker.resetToClosed (b : CircuitBreaker) (now : Int) : CircuitBreaker :=
  { b with state := .closed, lastStateChange := now, halfOpenAttempts := 0, failures := [] }

/-- Helper for the half-open section of `canExecute` (attempt cap, then
count the trial). -/
def CircuitBreaker.halfOpenGate (b : CircuitBreaker) :
    Except CircuitOpenErr Bool × CircuitBreaker :=
  if b.halfOpenAttempts ≥ b.config.halfOpenMaxAttempts then
    (.error ⟨"Circuit is half-open"⟩, b)
  else (.ok true, { b with halfOpenAttempts := b.halfOpenAttempts + 1 })

/-- `canExecute()`: open breakers transition to half-open once the reset
timeout elapsed (else throw); half-open breakers admit up to
`halfOpenMaxAttempts` trials (else throw); closed breakers admit. -/
def CircuitBreaker.canExecute (b : CircuitBreaker) (now : Int) :
    Except CircuitOpenErr Bool × CircuitBreaker :=
  if b.state = .open then
    if now - b.lastStateChange ≥ b.config.resetTimeoutMs then
      (b.transitionToHalfOpen now).halfOpenGate
    else (.error ⟨"Circuit is open"⟩, b)
  else if b.state = .halfOpen then b.halfOpenGate
  else (.ok true, b)

def CircuitBreaker.recordSuccess (b : CircuitBreaker) (now : Int) : CircuitBreaker :=
  if b.state = .halfOpen then b.resetToClosed now
  else if b.state = .closed then b.pruneFailures now
  else b

def CircuitBreaker.recordFailure (b : CircuitBreaker) (now : Int) : CircuitBreaker :=
  let b1 := b.pruneFailures now
  let b2 := { b1 with failures := b1.failures ++ [now] }
  if b2.state = .halfOpen then b2.transitionToOpen now
  else if b2.state = .closed ∧ b2.failures.length ≥ b2.config.failureThreshold then
    b2.transitionToOpen now
  else b2

/-- `MAX_CIRCUIT_BREAKERS` (source line 184). -/
def MAX_CIRCUIT_BREAKERS : Nat := 100

/-- `getCircuitBreaker` over the registry, modelled as the Map's
insertion-ordered entry list: a hit returns the breaker unchanged; a miss
at capacity deletes the first-inserted key (`keys().next().value`) and
appends the new entry. -/
def getCircuitBreaker (reg : List (String × CircuitBreaker)) (key : String)
    (config : CircuitBreakerConfig) (now : Int) :
    CircuitBreaker × List (String × CircuitBreaker) :=
  match alookup key reg with
  | some b => (b, reg)
  | none =>
    let reg1 :=
      if reg.length ≥ MAX_CIRCUIT_BREAKERS then
        match reg with
        | [] => reg
        | _ :: rest => rest
      else reg
    let b := CircuitBreaker.new config now
    (b, reg1 ++ [(key, b)])

/-! ### Auth rate limiter (lib/auth-rate-limit.ts) -/

structure AuthRateLimitConfig where
  maxAttempts : Nat
  windowMs : Int
deriving DecidableEq, Repr

def DEFAULT_AUTH_RATE_LIMIT_CONFIG : AuthRateLimitConfig := ⟨5, 60000⟩

/-- The `attemptsByAccount` map: normalized key → attempt timestamps. -/
def AttemptMap : Type := List (String × List Int)

def getAccountKey (accountId : String) : String := trimS (lowerS accountId)

def pruneOldAttempts (cfg : AuthRateLimitConfig) (ts : List Int) (now : Int) : List Int :=
  ts.filter fun t => t > now - cfg.windowMs

/-- `canAttemptAuth`: true when fewer than `maxAttempts` timestamps
survive the sliding window for the normalized key. -/
def canAttemptAuth (cfg : AuthRateLimitConfig) (st : AttemptMap) (accountId : String)
    (now : Int) : Bool :=
  match alookup (getAccountKey accountId) st with
  | none => true
  | some ts => (pruneOldAttempts cfg ts now).length < cfg.maxAttempts

/-- `recordAuthAttempt`: prune, then append `now` under the normalized key. -/
def recordAuthAttempt (cfg : AuthRateLimitConfig) (st : AttemptMap) (accountId : String)
    (now : Int) : AttemptMap :=
  let key := getAccountKey accountId
  let ts := (alookup key st).getD []
  aset key (pruneOldAttempts cfg ts now ++ [now]) st

/-- `getAttemptsRemaining`. -/
def getAttemptsRemaining (cfg : AuthRateLimitConfig) (st : AttemptMap) (accountId : String)
    (now : Int) : Nat :=
  match alookup (getAccountKey accountId) st with
  | none => cfg.maxAttempts
  | some ts => cfg.maxAttempts - (pruneOldAttempts cfg ts now).length

/-! ### Parallel prober (lib/parallel-probe.ts lines 84-134)

The single-threaded event loop is modelled by the list of candidate
completion events in the real-time order the scheduler delivers them; a
candidate is named by its position in the candidate list and carries its
account index (`account.index`).  Cancellation signals are counted per
candidate position. -/

inductive POutcome (T : Type) where
  | success (v : T)
  | failure
deriving DecidableEq, Repr

inductive PRes (T : Type) where
  | success (accIdx : Nat) (v : T)
  | failure (accIdx : Nat)
deriving DecidableEq, Repr

structure RaceSt (T : Type) where
  winner : Option (Nat × T)
  resolvedCount : Nat
  resolvedVal : Option (Option (Nat × T))
  aborts : Nat → Nat

/-- Effect of one settled probe promise on the race state, mirroring the
`.then` / `.catch` handlers: the first success (while no winner is
recorded) becomes the winner, aborts every candidate whose account index
differs from the winner's, and resolves; a failure bumps the rejection
counter and resolves `null` when all candidates have rejected with no
winner.  A promise resolves at most once, so only the first resolution
value sticks. -/
def processEvent {T : Type} (cands : List Nat) (st : RaceSt T)
    (ev : Nat × POutcome T) : RaceSt T :=
  match ev.2 with
  | .success v =>
    if st.winner.isSome then st
    else
      match cands.get? ev.1 with
      | none => st
      | some aIdx =>
        { winner := some (ev.1, v)
          resolvedCount := st.resolvedCount
          resolvedVal :=
            match st.resolvedVal with
            | some r => some r
            | none => some (some (aIdx, v))
          aborts := fun p =>
            st.aborts p +
              if (cands.get? p).isSome ∧ cands.get? p ≠ some aIdx then 1 else 0 }
  | .failure =>
    let rc := st.resolvedCount + 1
    { winner := st.winner
      resolvedCount := rc
      resolvedVal :=
        if rc = cands.length ∧ st.winner.isNone then
          match st.resolvedVal with
          | some r => some r
          | none => some none
        else st.resolvedVal
      aborts := st.aborts }

def raceInit (T : Type) : RaceSt T := ⟨none, 0, none, fun _ => 0⟩

def probeRace {T : Type} (cands : List Nat) (events : List (Nat × POutcome T)) : RaceSt T :=
  events.foldl (processEvent cands) (raceInit T)

/-- `probeAccountsInParallel`: empty input resolves `null`; a single
candidate runs directly and yields its own success or failure; two or
more candidates race.  First component: `none` = the returned promise
never resolves, `some none` = resolves `null`, `some (some r)` = resolves
with `r`.  Second component: cancellation-signal count per candidate
position. -/
def probeAccountsInParallel {T : Type} (cands : List Nat)
    (events : List (Nat × POutcome T)) : Option (Option (PRes T)) × (Nat → Nat) :=
  match cands with
  | [] => (some none, fun _ => 0)
  | [c] =>
    match (events.find? fun e => e.1 = 0).map Prod.snd with
    | some (.success v) => (some (some (.success c v)), fun _ => 0)
    | some .failure => (some (some (.failure c)), fun _ => 0)
    | none => (none, fun _ => 0)
  | _ =>
    let fin := probeRace cands events
    (fin.resolvedVal.map (Option.map fun r => PRes.success r.1 r.2), fin.aborts)

/-! ### importAccounts (storage.ts lines 657-710) -/

structure ImportRes where
  imported : Int
  total : Nat
  skipped : Int
deriving DecidableEq, Repr

/-- storage.ts `importAccounts`, restricted to its pure core: the import
file has already been read and parsed into `fileRaw`, and `existing` is
the result of `loadAccounts()` (a normalized pool, or `none` when the
store is absent).  `maxAccounts` stands for `ACCOUNT_LIMITS.MAX_ACCOUNTS`
(defined in constants.ts, which is not among the sources; the claim under
verification does not depend on its value). -/
def importAccounts (maxAccounts : Nat) (fileRaw : Raw) (existing : Option StorageV3) :
    Except String ImportRes :=
  match normalizeAccountStorage fileRaw with
  | none => .error "Invalid account storage format"
  | some normalized =>
    let existingAccounts := (existing.map (·.accounts)).getD []
    let merged := existingAccounts ++ normalized.accounts
    let deduped := deduplicateAccountsByEmail (deduplicateAccountsByKey merged)
    if merged.length > maxAccounts ∧ deduped.length > maxAccounts then
      .error "Import would exceed maximum accounts"
    else
      let importedCount : Int := (deduped.length : Int) - (existingAccounts.length : Int)
      let skippedCount : Int := (normalized.accounts.length : Int) - importedCount
      .ok ⟨importedCount, deduped.length, skippedCount⟩

/-! ### Concrete inputs used by the end-to-end scenarios and
counterexamples -/

/-- Scenario 1 of the spec: v1 store with a duplicated account key. -/
def scenarioV1Acc1 : Account := ⟨some "A", none, some "tA", some 100, some 100, none⟩

def scenarioV1Acc2 : Account := ⟨some "A", none, some "tA", some 200, some 200, none⟩

def scenarioV1Acc3 : Account := ⟨some "B", none, some "tB", some 300, some 300, none⟩

def scenarioV1Raw : Raw :=
  ⟨some 1, some [.acc scenarioV1Acc1, .acc scenarioV1Acc2, .acc scenarioV1Acc3],
    some 1, none⟩

/-- An account whose `accountId` is whitespace-only: its dedup key
(`toAccountKey`) is `" "`, but the trim-aware `extractActiveKey` falls
back to its `refreshToken` `"x"`. -/
def aliasAccA : Account := ⟨some " ", none, some "x", some 1, some 1, none⟩

/-- An account whose dedup key `"x"` collides with `aliasAccA`'s
refresh token. -/
def aliasAccB : Account := ⟨some "x", none, some "y", some 2, some 2, none⟩

/-- v3 input whose active account is `aliasAccA`. -/
def aliasRaw : Raw := ⟨some 3, some [.acc aliasAccA, .acc aliasAccB], some 0, none⟩

/-- v3 input whose active index lands on a junk entry, so the first
normalization pass keeps the clamped index unchanged. -/
def aliasJunkRaw : Raw :=
  ⟨some 3, some [.junk, .acc aliasAccA, .acc aliasAccB], some 0, none⟩

/-- Existing pool contents for the negative-import example. -/
def importExistAcc1 : Account := ⟨some "k1", some "e1", some "r1", some 10, some 10, none⟩

def importExistAcc2 : Account := ⟨some "k2", some "e2", some "r2", some 10, some 10, none⟩

def importExistRaw : Raw :=
  ⟨some 3, some [.acc importExistAcc1, .acc importExistAcc2], some 0, none⟩

/-- A single imported account that collides with `importExistAcc1` by
account key and with `importExistAcc2` by email, and is newer than both. -/
def importFileAcc : Account := ⟨some "k1", some "e2", some "r3", some 99, some 99, none⟩

def importFileRaw : Raw := ⟨some 3, some [.acc importFileAcc], some 0, none⟩

/-- Circuit breaker of scenario 3, after three failures at t = 0. -/
def scenarioBreaker3 : CircuitBreaker :=
  (((CircuitBreaker.new DEFAULT_CIRCUIT_BREAKER_CONFIG 0).recordFailure 0).recordFailure
      0).recordFailure 0

/-- Registry filled with 100 distinct keys `"k0"`, …, `"k99"` (in
insertion order). -/
def regFull : List (String × CircuitBreaker) :=
  (List.range 100).foldl
    (fun r i => (getCircuitBreaker r ("k" ++ toString i) DEFAULT_CIRCUIT_BREAKER_CONFIG 0).2) []

/-- The full registry after re-using `"k0"` (making it the most recently
used entry) and then inserting the fresh key `"fresh"` at capacity. -/
def regAfterEvict : List (String × CircuitBreaker) :=
  (getCircuitBreaker
    (getCircuitBreaker regFull "k0" DEFAULT_CIRCUIT_BREAKER_CONFIG 5).2
    "fresh" DEFAULT_CIRCUIT_BREAKER_CONFIG 6).2

/-- Attempt map of scenario 6: five attempts at t = 0 for
`"user@example.com"`. -/
def scenarioAttempts : AttemptMap :=
  (List.range 5).foldl
    (fun st _ => recordAuthAttempt DEFAULT_AUTH_RATE_LIMIT_CONFIG st "user@example.com" 0) []

/-! ### Predicates for the storage invariants -/

/-- No two accounts share an account key (the dedup identity
`accountId || refreshToken`). -/
def KeyDistinct (l : List Account) : Prop :=
  l.Pairwise fun a b => toAccountKey a ≠ toAccountKey b

/-- No two accounts share a non-empty trimmed email. -/
def EmailDistinct (l : List Account) : Prop :=
  l.Pairwise fun a b => ∀ e, emailKey a = some e → emailKey b ≠ some e

/-- The account passed the load filter: a string `refreshToken` that is
non-blank after trimming. -/
def ValidAccount (a : Account) : Prop :=
  ∃ r, a.refreshToken = some r ∧ trimS r ≠ ""

/-- The account's `accountId`, when present and non-empty, is not
whitespace-only — the condition under which the trim-aware
`extractActiveKey` agrees with the dedup key `toAccountKey`. -/
def GoodId (a : Account) : Prop :=
  ∀ id, a.accountId = some id → id ≠ "" → trimS id ≠ ""

/-- Invariant of the `keyToIndex` map built by
`deduplicateAccountsByKey`: every entry points at an account whose key is
the map key (which is non-empty), and map keys are distinct. -/
def KeyMapInv (accounts : List Account) (m : List (String × Nat)) : Prop :=
  (∀ p ∈ m, ∃ a, accounts.get? p.2 = some a ∧ toAccountKey a = p.1 ∧ p.1 ≠ "") ∧
  (m.map Prod.fst).Nodup

/-- Invariant of the state built by `deduplicateAccountsByEmail`:
`emailToNewestIndex` entries point at accounts carrying the map key as
trimmed email, with distinct map keys, and the always-keep list holds
indices of accounts without a usable email. -/
def EmailMapInv (accounts : List Account) (st : List (String × Nat) × List Nat) : Prop :=
  (∀ p ∈ st.1, ∃ a, accounts.get? p.2 = some a ∧ emailKey a = some p.1) ∧
  (st.1.map Prod.fst).Nodup ∧
  (∀ i ∈ st.2, ∃ a, accounts.get? i = some a ∧ emailKey a = none)

/-! ## Supporting lemmas -/

theorem alookup_aset_self {β : Type} (k : String) (v : β) (m : List (String × β)) :
    alookup k (aset k v m) = some v := by
  induction m with
  | nil => simp [aset, alookup]
  | cons p rest ih =>
    by_cases h : p.1 = k
    · simp [aset, h, alookup]
    · simp only [aset]
      rw [if_neg h]
      simp only [alookup]
      rw [if_neg h]
      exact ih

theorem aset_eq_append {β : Type} (k : String) (v : β) (m : List (String × β))
    (h : alookup k m = none) : aset k v m = m ++ [(k, v)] := by
  induction m with
  | nil => rfl
  | cons p rest ih =>
    simp only [alookup] at h
    by_cases hk : p.1 = k
    · rw [if_pos hk] at h
      exact absurd h (by simp)
    · rw [if_neg hk] at h
      simp only [aset]
      rw [if_neg hk, ih h]
      rfl

theorem mem_aset {β : Type} (k : String) (v : β) (m : List (String × β)) (p : String × β)
    (h : p ∈ aset k v m) : p = (k, v) ∨ p ∈ m := by
  induction m with
  | nil => simp [aset] at h; exact Or.inl h
  | cons q rest ih =>
    simp only [aset] at h
    by_cases hk : q.1 = k
    · rw [if_pos hk] at h
      rcases List.mem_cons.1 h with h1 | h1
      · exact Or.inl h1
      · exact Or.inr (List.mem_cons_of_mem _ h1)
    · rw [if_neg hk] at h
      rcases List.mem_cons.1 h with h1 | h1
      · exact Or.inr (h1 ▸ List.mem_cons_self _ _)
      · rcases ih h1 with h2 | h2
        · exact Or.inl h2
        · exact Or.inr (List.mem_cons_of_mem _ h2)

theorem alookup_some_mem {β : Type} (k : String) (m : List (String × β)) (v : β)
    (h : alookup k m = some v) : (k, v) ∈ m := by
  induction m with
  | nil => simp [alookup] at h
  | cons q rest ih =>
    simp only [alookup] at h
    by_cases hk : q.1 = k
    · rw [if_pos hk] at h
      have h2 := Option.some.inj h
      have hq : q = (k, v) := by
        rw [← hk, ← h2]
      rw [← hq]
      exact List.mem_cons_self _ _
    · rw [if_neg hk] at h
      exact List.mem_cons_of_mem _ (ih h)

theorem alookup_none_not_memFst {β : Type} (k : String) (m : List (String × β))
    (h : alookup k m = none) : k ∉ m.map Prod.fst := by
  induction m with
  | nil => simp
  | cons q rest ih =>
    simp only [alookup] at h
    by_cases hk : q.1 = k
    · rw [if_pos hk] at h
      exact absurd h (by simp)
    · rw [if_neg hk] at h
      simp only [List.map_cons, List.mem_cons]
      rintro (h1 | h1)
      · exact hk h1.symm
      · exact ih h h1

theorem map_fst_aset_some {β : Type} (k : String) (v : β) (m : List (String × β)) (j : β)
    (h : alookup k m = some j) : (aset k v m).map Prod.fst = m.map Prod.fst := by
  induction m with
  | nil => simp [alookup] at h
  | cons q rest ih =>
    simp only [alookup] at h
    by_cases hk : q.1 = k
    · simp [aset, hk]
    · rw [if_neg hk] at h
      simp only [aset]
      rw [if_neg hk]
      simp [ih h]

theorem nodupFst_eq {β : Type} (m : List (String × β)) (k : String) (v v' : β)
    (hnd : (m.map Prod.fst).Nodup) (h1 : (k, v) ∈ m) (h2 : (k, v') ∈ m) : v = v' := by
  induction m with
  | nil => simp at h1
  | cons q rest ih =>
    simp only [List.map_cons, List.nodup_cons] at hnd
    rcases List.mem_cons.1 h1 with e1 | e1 <;> rcases List.mem_cons.1 h2 with e2 | e2
    · rw [← e1] at e2
      exact (Prod.mk.injEq _ _ _ _ ▸ e2.symm).2
    · exfalso
      have hq1 : q.1 = k := by rw [← e1]
      exact hnd.1 (by rw [hq1]; exact List.mem_map.2 ⟨(k, v'), e2, rfl⟩)
    · exfalso
      have hq1 : q.1 = k := by rw [← e2]
      exact hnd.1 (by rw [hq1]; exact List.mem_map.2 ⟨(k, v), e1, rfl⟩)
    · exact ih hnd.2 e1 e2

theorem mem_values {β : Type} (m : List (String × β)) (v : β) :
    v ∈ m.map Prod.snd ↔ ∃ k, (k, v) ∈ m := by
  constructor
  · intro h
    obtain ⟨p, hp, he⟩ := List.mem_map.1 h
    exact ⟨p.1, by rwa [← he]⟩
  · rintro ⟨k, hk⟩
    exact List.mem_map.2 ⟨(k, v), hk, rfl⟩

theorem any_eq_mem (l : List Nat) (i : Nat) : (l.any fun j => j = i) = true ↔ i ∈ l := by
  simp only [List.any_eq_true, decide_eq_true_eq]
  constructor
  · rintro ⟨j, hj, rfl⟩
    exact hj
  · intro h
    exact ⟨i, h, rfl⟩

theorem selectIdx_sublist (l : List Account) (i : Nat) (kept : Nat → Bool) :
    (selectIdx l i kept).Sublist l := by
  induction l generalizing i with
  | nil => simp [selectIdx]
  | cons a rest ih =>
    simp only [selectIdx]
    by_cases h : kept i
    · rw [if_pos h]
      exact List.Sublist.cons₂ a (ih (i + 1))
    · rw [if_neg h]
      exact List.Sublist.cons a (ih (i + 1))

theorem mem_selectIdx (l : List Account) (i : Nat) (kept : Nat → Bool) (a : Account) :
    a ∈ selectIdx l i kept ↔ ∃ j, l.get? j = some a ∧ kept (i + j) = true := by
  induction l generalizing i with
  | nil => simp [selectIdx]
  | cons b rest ih =>
    simp only [selectIdx]
    by_cases h : kept i
    · rw [if_pos h]
      simp only [List.mem_cons]
      constructor
      · rintro (rfl | hmem)
        · exact ⟨0, rfl, by simpa using h⟩
        · obtain ⟨j, hg, hk⟩ := (ih (i + 1)).1 hmem
          refine ⟨j + 1, by simpa using hg, ?_⟩
          have harith : i + (j + 1) = i + 1 + j := by omega
          rw [harith]
          exact hk
      · rintro ⟨j, hg, hk⟩
        cases j with
        | zero => exact Or.inl (Option.some.inj hg).symm
        | succ j' =>
          right
          apply (ih (i + 1)).2
          refine ⟨j', by simpa using hg, ?_⟩
          have harith : i + 1 + j' = i + (j' + 1) := by omega
          rw [harith]
          exact hk
    · rw [if_neg h]
      constructor
      · intro hmem
        obtain ⟨j, hg, hk⟩ := (ih (i + 1)).1 hmem
        refine ⟨j + 1, by simpa using hg, ?_⟩
        have harith : i + (j + 1) = i + 1 + j := by omega
        rw [harith]
        exact hk
      · rintro ⟨j, hg, hk⟩
        cases j with
        | zero =>
          exfalso
          apply h
          simpa using hk
        | succ j' =>
          apply (ih (i + 1)).2
          refine ⟨j', by simpa using hg, ?_⟩
          have harith : i + 1 + j' = i + (j' + 1) := by omega
          rw [harith]
          exact hk

theorem selectIdx_pairwise (R : Account → Account → Prop) (l : List Account) (i : Nat)
    (kept : Nat → Bool)
    (h : ∀ j1 j2 a1 a2, j1 < j2 → l.get? j1 = some a1 → l.get? j2 = some a2 →
      kept (i + j1) = true → kept (i + j2) = true → R a1 a2) :
    (selectIdx l i kept).Pairwise R := by
  induction l generalizing i with
  | nil => simp [selectIdx]
  | cons a rest ih =>
    simp only [selectIdx]
    have hshift : ∀ j1 j2 a1 a2, j1 < j2 → rest.get? j1 = some a1 →
        rest.get? j2 = some a2 → kept (i + 1 + j1) = true → kept (i + 1 + j2) = true →
        R a1 a2 := by
      intro j1 j2 a1 a2 hlt hg1 hg2 hk1 hk2
      refine h (j1 + 1) (j2 + 1) a1 a2 (by omega) (by simpa using hg1)
        (by simpa using hg2) ?_ ?_
      · have harith : i + (j1 + 1) = i + 1 + j1 := by omega
        rw [harith]
        exact hk1
      · have harith : i + (j2 + 1) = i + 1 + j2 := by omega
        rw [harith]
        exact hk2
    by_cases hk : kept i
    · rw [if_pos hk]
      refine List.Pairwise.cons ?_ (ih (i + 1) hshift)
      intro b hb
      obtain ⟨j, hg, hkj⟩ := (mem_selectIdx rest (i + 1) kept b).1 hb
      refine h 0 (j + 1) a b (by omega) rfl (by simpa using hg) (by simpa using hk) ?_
      have harith : i + (j + 1) = i + 1 + j := by omega
      rw [harith]
      exact hkj
    · rw [if_neg hk]
      exact ih (i + 1) hshift

theorem selectIdx_eq_self (l : List Account) (i : Nat) (kept : Nat → Bool)
    (h : ∀ j, j < l.length → kept (i + j) = true) : selectIdx l i kept = l := by
  induction l generalizing i with
  | nil => rfl
  | cons a rest ih =>
    simp only [selectIdx]
    rw [if_pos (by simpa using h 0 (by simp))]
    congr 1
    apply ih (i + 1)
    intro j hj
    have hkeep := h (j + 1) (by simpa using Nat.succ_lt_succ hj)
    have harith : i + 1 + j = i + (j + 1) := by omega
    rw [harith]
    exact hkeep

theorem findKeyIdx_some (k : String) (l : List Account) (j : Nat)
    (h : findKeyIdx k l = some j) : ∃ a, l.get? j = some a ∧ toAccountKey a = k := by
  induction l generalizing j with
  | nil => simp [findKeyIdx] at h
  | cons a rest ih =>
    simp only [findKeyIdx] at h
    by_cases hk : toAccountKey a = k
    · rw [if_pos hk] at h
      have := Option.some.inj h
      exact ⟨a, by rw [← this]; rfl, hk⟩
    · rw [if_neg hk] at h
      obtain ⟨j', hj', rfl⟩ := Option.map_eq_some'.1 h
      obtain ⟨b, hg, hb⟩ := ih j' hj'
      exact ⟨b, by simpa using hg, hb⟩

theorem findKeyIdx_lt (k : String) (l : List Account) (j : Nat)
    (h : findKeyIdx k l = some j) : j < l.length := by
  obtain ⟨a, hg, _⟩ := findKeyIdx_some k l j h
  exact (List.get?_eq_some.1 hg).1

theorem findKeyIdx_none (k : String) (l : List Account)
    (h : findKeyIdx k l = none) : ∀ j a, l.get? j = some a → toAccountKey a ≠ k := by
  induction l with
  | nil => intro j a hg; simp at hg
  | cons b rest ih =>
    simp only [findKeyIdx] at h
    by_cases hk : toAccountKey b = k
    · rw [if_pos hk] at h
      exact absurd h (by simp)
    · rw [if_neg hk] at h
      intro j a hg
      cases j with
      | zero => rw [← Option.some.inj hg]; exact hk
      | succ j' =>
        exact ih (Option.map_eq_none'.1 h) j' a (by simpa using hg)

theorem findKeyIdx_of_distinct (l : List Account) (hd : KeyDistinct l) (j : Nat)
    (a : Account) (hg : l.get? j = some a) : findKeyIdx (toAccountKey a) l = some j := by
  induction l generalizing j with
  | nil => simp at hg
  | cons b rest ih =>
    rcases List.pairwise_cons.1 hd with ⟨hb, hrest⟩
    cases j with
    | zero =>
      have : b = a := Option.some.inj hg
      subst this
      simp [findKeyIdx]
    | succ j' =>
      have hg' : rest.get? j' = some a := by simpa using hg
      have hne : toAccountKey b ≠ toAccountKey a :=
        hb a (List.get?_mem hg')
      simp only [findKeyIdx]
      rw [if_neg hne, ih hrest j' hg']
      rfl

theorem keyStep_inv (accounts : List Account) (m : List (String × Nat)) (i : Nat)
    (h : KeyMapInv accounts m) : KeyMapInv accounts (keyStep accounts m i) := by
  cases hga : accounts.get? i with
  | none =>
    simp only [keyStep, hga]
    exact h
  | some a =>
    simp only [keyStep, hga]
    by_cases hk : toAccountKey a = ""
    · rw [if_pos hk]
      exact h
    · rw [if_neg hk]
      cases hlk : alookup (toAccountKey a) m with
      | none =>
        dsimp only
        rw [aset_eq_append _ _ _ hlk]
        constructor
        · intro p hp
          rcases List.mem_append.1 hp with hp | hp
          · exact h.1 p hp
          · have hpe : p = (toAccountKey a, i) := by simpa using hp
            rw [hpe]
            exact ⟨a, hga, rfl, hk⟩
        · rw [List.map_append]
          simp only [List.map_cons, List.map_nil]
          rw [List.nodup_append]
          refine ⟨h.2, List.nodup_singleton _, ?_⟩
          rw [List.disjoint_singleton]
          exact alookup_none_not_memFst _ _ hlk
      | some j =>
        dsimp only
        cases hgj : accounts.get? j with
        | none =>
          dsimp only
          exact h
        | some existing =>
          dsimp only
          constructor
          · intro p hp
            rcases mem_aset _ _ _ p hp with hpe | hp2
            · rw [hpe]
              by_cases hsel : selectNewestPrefersCandidate existing a
              · rw [if_pos hsel]
                exact ⟨a, hga, rfl, hk⟩
              · rw [if_neg hsel]
                have hmem := alookup_some_mem _ _ _ hlk
                obtain ⟨a', hg', hk', hne'⟩ := h.1 _ hmem
                exact ⟨a', hg', hk', hne'⟩
            · exact h.1 p hp2
          · rw [map_fst_aset_some _ _ _ _ hlk]
            exact h.2

theorem keyFold_inv (accounts : List Account) (is : List Nat) (m : List (String × Nat))
    (h : KeyMapInv accounts m) : KeyMapInv accounts (keyFold accounts is m) := by
  induction is generalizing m with
  | nil => exact h
  | cons i rest ih => exact ih _ (keyStep_inv accounts m i h)

theorem keyMapInv_keyMap (accounts : List Account) :
    KeyMapInv accounts (keyFold accounts (List.range accounts.length) []) :=
  keyFold_inv accounts _ [] ⟨by simp, by simp⟩

theorem deduplicateAccountsByKey_keyDistinct (accounts : List Account) :
    KeyDistinct (deduplicateAccountsByKey accounts) := by
  unfold deduplicateAccountsByKey KeyDistinct
  apply selectIdx_pairwise
  intro j1 j2 a1 a2 hlt hg1 hg2 hk1 hk2
  have hm := keyMapInv_keyMap accounts
  have hmem1 : j1 ∈ (keyFold accounts (List.range accounts.length) []).map Prod.snd := by
    have := (any_eq_mem _ _).1 hk1
    simpa using this
  have hmem2 : j2 ∈ (keyFold accounts (List.range accounts.length) []).map Prod.snd := by
    have := (any_eq_mem _ _).1 hk2
    simpa using this
  obtain ⟨k1, hk1m⟩ := (mem_values _ _).1 hmem1
  obtain ⟨k2, hk2m⟩ := (mem_values _ _).1 hmem2
  obtain ⟨b1, hb1g, hb1k, _⟩ := hm.1 _ hk1m
  obtain ⟨b2, hb2g, hb2k, _⟩ := hm.1 _ hk2m
  rw [hg1] at hb1g
  rw [hg2] at hb2g
  have he1 : b1 = a1 := (Option.some.inj hb1g).symm
  have he2 : b2 = a2 := (Option.some.inj hb2g).symm
  subst he1
  subst he2
  intro heq
  have t1 : toAccountKey b1 = k1 := hb1k
  have t2 : toAccountKey b2 = k2 := hb2k
  have hkk : k1 = k2 := by rw [← t1, ← t2, heq]
  rw [hkk] at hk1m
  exact absurd (nodupFst_eq _ _ _ _ hm.2 hk1m hk2m) (by omega)

theorem deduplicateAccountsByKey_sublist (accounts : List Account) :
    (deduplicateAccountsByKey accounts).Sublist accounts :=
  selectIdx_sublist accounts 0 _

theorem emailStep_inv (accounts : List Account) (st : List (String × Nat) × List Nat)
    (i : Nat) (h : EmailMapInv accounts st) :
    EmailMapInv accounts (emailStep accounts st i) := by
  cases hga : accounts.get? i with
  | none =>
    simp only [emailStep, hga]
    exact h
  | some a =>
    simp only [emailStep, hga]
    cases hek : emailKey a with
    | none =>
      dsimp only
      refine ⟨h.1, h.2.1, ?_⟩
      intro x hx
      rcases List.mem_cons.1 hx with hx1 | hx2
      · rw [hx1]
        exact ⟨a, hga, hek⟩
      · exact h.2.2 x hx2
    | some e =>
      dsimp only
      have hset : ∀ hlk2 : alookup e st.1 = none ∨ (∃ j, alookup e st.1 = some j),
          EmailMapInv accounts (aset e i st.1, st.2) := by
        intro hlk2
        refine ⟨?_, ?_, h.2.2⟩
        · intro p hp
          rcases mem_aset _ _ _ p hp with hpe | hp2
          · rw [hpe]
            exact ⟨a, hga, hek⟩
          · exact h.1 p hp2
        · rcases hlk2 with hlk | ⟨j, hlk⟩
          · rw [aset_eq_append _ _ _ hlk, List.map_append]
            simp only [List.map_cons, List.map_nil]
            rw [List.nodup_append]
            refine ⟨h.2.1, List.nodup_singleton _, ?_⟩
            rw [List.disjoint_singleton]
            exact alookup_none_not_memFst _ _ hlk
          · rw [map_fst_aset_some _ _ _ _ hlk]
            exact h.2.1
      cases hlk : alookup e st.1 with
      | none =>
        dsimp only
        exact hset (Or.inl hlk)
      | some j =>
        dsimp only
        cases hgj : accounts.get? j with
        | none =>
          dsimp only
          exact hset (Or.inr ⟨j, hlk⟩)
        | some ex =>
          dsimp only
          by_cases hpref : emailPrefersCandidate ex a
          · rw [if_pos hpref]
            exact hset (Or.inr ⟨j, hlk⟩)
          · rw [if_neg hpref]
            exact h

theorem emailFold_inv (accounts : List Account) (is : List Nat)
    (st : List (String × Nat) × List Nat) (h : EmailMapInv accounts st) :
    EmailMapInv accounts (emailFold accounts is st) := by
  induction is generalizing st with
  | nil => exact h
  | cons i rest ih => exact ih _ (emailStep_inv accounts st i h)

theorem emailMapInv_emailMap (accounts : List Account) :
    EmailMapInv accounts (emailFold accounts (List.range accounts.length) ([], [])) :=
  emailFold_inv accounts _ ([], []) ⟨by simp, by simp, by simp⟩

theorem emailStep_keeps (accounts : List Account) (st : List (String × Nat) × List Nat)
    (i : Nat) : ∀ x ∈ st.2, x ∈ (emailStep accounts st i).2 := by
  intro x hx
  cases hga : accounts.get? i with
  | none =>
    simp only [emailStep, hga]
    exact hx
  | some a =>
    simp only [emailStep, hga]
    cases hek : emailKey a with
    | none => exact List.mem_cons_of_mem _ hx
    | some e =>
      dsimp only
      cases alookup e st.1 with
      | none => exact hx
      | some j =>
        dsimp only
        cases accounts.get? j with
        | none => exact hx
        | some ex =>
          dsimp only
          by_cases hpref : emailPrefersCandidate ex a
          · rw [if_pos hpref]
            exact hx
          · rw [if_neg hpref]
            exact hx

theorem emailFold_keeps (accounts : List Account) (is : List Nat)
    (st : List (String × Nat) × List Nat) : ∀ x ∈ st.2, x ∈ (emailFold accounts is st).2 := by
  induction is generalizing st with
  | nil => exact fun x hx => hx
  | cons i rest ih =>
    intro x hx
    exact ih _ x (emailStep_keeps accounts st i x hx)

theorem emailFold_mem_noEmail (accounts : List Account) (is : List Nat)
    (st : List (String × Nat) × List Nat) (i : Nat) (a : Account)
    (hga : accounts.get? i = some a) (hek : emailKey a = none) (hmem : i ∈ is) :
    i ∈ (emailFold accounts is st).2 := by
  induction is generalizing st with
  | nil => exact absurd hmem (List.not_mem_nil i)
  | cons i0 rest ih =>
    by_cases he : i = i0
    · subst he
      show i ∈ (emailFold accounts rest (emailStep accounts st i)).2
      apply emailFold_keeps
      simp only [emailStep, hga, hek]
      exact List.mem_cons_self _ _
    · exact ih _ (List.mem_of_ne_of_mem he hmem)

theorem deduplicateAccountsByEmail_keeps_noEmail (accounts : List Account) (i : Nat)
    (a : Account) (hga : accounts.get? i = some a) (hek : emailKey a = none) :
    a ∈ deduplicateAccountsByEmail accounts := by
  unfold deduplicateAccountsByEmail
  apply (mem_selectIdx _ 0 _ a).2
  refine ⟨i, hga, ?_⟩
  have hlen : i < accounts.length := (List.get?_eq_some.1 hga).1
  have hin : i ∈ (emailFold accounts (List.range accounts.length) ([], [])).2 :=
    emailFold_mem_noEmail accounts _ ([], []) i a hga hek (List.mem_range.2 hlen)
  have : ((emailFold accounts (List.range accounts.length) ([], [])).2.any
      fun j => j = 0 + i) = true := by
    apply (any_eq_mem _ _).2
    simpa using hin
  rw [Bool.or_eq_true]
  exact Or.inl this

theorem deduplicateAccountsByEmail_emailDistinct (accounts : List Account) :
    EmailDistinct (deduplicateAccountsByEmail accounts) := by
  unfold deduplicateAccountsByEmail EmailDistinct
  apply selectIdx_pairwise
  intro j1 j2 a1 a2 hlt hg1 hg2 hk1 hk2 e he1 he2
  have hm := emailMapInv_emailMap accounts
  have hre : ∀ j b, accounts.get? j = some b →
      ((emailFold accounts (List.range accounts.length) ([], [])).2.any
          fun x => x = 0 + j) = true ∨
        ((emailFold accounts (List.range accounts.length) ([], [])).1.map
            Prod.snd).any (fun x => x = 0 + j) = true →
      emailKey b = some e → ∃ k, (k, j) ∈ (emailFold accounts (List.range accounts.length)
        ([], [])).1 ∧ k = e := by
    intro j b hg hdis hbe
    rcases hdis with hno | hval
    · exfalso
      have hin : j ∈ (emailFold accounts (List.range accounts.length) ([], [])).2 := by
        have := (any_eq_mem _ _).1 hno
        simpa using this
      obtain ⟨b', hg', he'⟩ := hm.2.2 j hin
      rw [hg] at hg'
      rw [Option.some.inj hg'] at hbe
      rw [he'] at hbe
      exact Option.noConfusion hbe
    · have hin : j ∈ ((emailFold accounts (List.range accounts.length) ([], [])).1.map
          Prod.snd) := by
        have := (any_eq_mem _ _).1 hval
        simpa using this
      obtain ⟨k, hkm⟩ := (mem_values _ _).1 hin
      obtain ⟨b', hg', he'⟩ := hm.1 _ hkm
      rw [hg] at hg'
      have hbb : b' = b := (Option.some.inj hg').symm
      rw [hbb] at he'
      rw [hbe] at he'
      exact ⟨k, hkm, (Option.some.inj he').symm⟩
  rw [Bool.or_eq_true] at hk1 hk2
  obtain ⟨k1, hk1m, hke1⟩ := hre j1 a1 hg1 hk1 he1
  obtain ⟨k2, hk2m, hke2⟩ := hre j2 a2 hg2 hk2 he2
  rw [hke1] at hk1m
  rw [hke2] at hk2m
  exact absurd (nodupFst_eq _ _ _ _ hm.2.1 hk1m hk2m) (by omega)

theorem deduplicateAccountsByEmail_sublist (accounts : List Account) :
    (deduplicateAccountsByEmail accounts).Sublist accounts :=
  selectIdx_sublist accounts 0 _

theorem clampIndex_zero (i : Int) : clampIndex i 0 = 0 := by
  simp [clampIndex]

theorem clampIndex_nonneg (i : Int) (len : Nat) : 0 ≤ clampIndex i len := by
  unfold clampIndex
  split
  · exact le_refl 0
  · exact le_max_left 0 _

theorem clampIndex_lt (i : Int) (len : Nat) (h : 0 < len) : clampIndex i len < len := by
  unfold clampIndex
  rw [if_neg (by omega)]
  apply max_lt
  · exact_mod_cast h
  · have h1 : min i ((len : Int) - 1) ≤ (len : Int) - 1 := min_le_right _ _
    omega

theorem clampIndex_of_range (i : Int) (len : Nat) (h0 : 0 ≤ i) (hlt : i < len) :
    clampIndex i len = i := by
  unfold clampIndex
  rw [if_neg (by omega), min_eq_left (by omega), max_eq_right h0]

theorem normalize_eq_some (data : Raw) (s : StorageV3)
    (h : normalizeAccountStorage data = some s) :
    ∃ raws, data.accounts = some raws ∧ s = normalizeCore data raws := by
  unfold normalizeAccountStorage at h
  by_cases hv : data.version = some 1 ∨ data.version = some 3
  · rw [if_pos hv] at h
    cases ha : data.accounts with
    | none =>
      rw [ha] at h
      exact absurd h (by simp)
    | some raws =>
      rw [ha] at h
      exact ⟨raws, rfl, (Option.some.inj h).symm⟩
  · rw [if_neg hv] at h
    exact absurd h (by simp)

theorem normalizeCore_accounts (data : Raw) (raws : List RawEntry) :
    (normalizeCore data raws).accounts =
      deduplicateAccountsByEmail
        (deduplicateAccountsByKey (raws.filterMap toValidAccount)) := rfl

theorem normalizeCore_version (data : Raw) (raws : List RawEntry) :
    (normalizeCore data raws).version = 3 := rfl

theorem normalizeCore_activeIndex (data : Raw) (raws : List RawEntry) :
    (normalizeCore data raws).activeIndex =
      (if (deduplicateAccountsByEmail
            (deduplicateAccountsByKey (raws.filterMap toValidAccount))).length = 0 then 0
       else
         match extractActiveKey raws (clampIndex (data.activeIndex.getD 0) raws.length) with
         | some k =>
           match findKeyIdx k (deduplicateAccountsByEmail
               (deduplicateAccountsByKey (raws.filterMap toValidAccount))) with
           | some j => (j : Int)
           | none =>
             clampIndex (clampIndex (data.activeIndex.getD 0) raws.length)
               (deduplicateAccountsByEmail
                 (deduplicateAccountsByKey (raws.filterMap toValidAccount))).length
         | none =>
           clampIndex (clampIndex (data.activeIndex.getD 0) raws.length)
             (deduplicateAccountsByEmail
               (deduplicateAccountsByKey (raws.filterMap toValidAccount))).length) := rfl

theorem mem_filterMap_toValid (l : List RawEntry) (a : Account)
    (h : a ∈ l.filterMap toValidAccount) : ValidAccount a := by
  obtain ⟨e, _, hev⟩ := List.mem_filterMap.1 h
  cases e with
  | junk => exact absurd hev (by simp [toValidAccount])
  | acc a' =>
    cases hrt : a'.refreshToken with
    | none =>
      simp only [toValidAccount, hrt] at hev
      exact absurd hev (by simp)
    | some r =>
      simp only [toValidAccount, hrt] at hev
      by_cases ht : trimS r = ""
      · rw [if_pos ht] at hev
        exact absurd hev (by simp)
      · rw [if_neg ht] at hev
        have haa : a' = a := Option.some.inj hev
        exact ⟨r, by rw [← haa]; exact hrt, ht⟩

theorem validAccount_key_ne (a : Account) (h : ValidAccount a) : toAccountKey a ≠ "" := by
  obtain ⟨r, hr, ht⟩ := h
  have hrne : r ≠ "" := by
    intro h0
    apply ht
    rw [h0]
    rfl
  unfold toAccountKey
  cases hid : a.accountId with
  | none =>
    dsimp only
    rw [hr]
    exact hrne
  | some id =>
    dsimp only
    by_cases hid0 : id = ""
    · rw [if_pos hid0, hr]
      exact hrne
    · rw [if_neg hid0]
      exact hid0

theorem keyDistinct_index (l : List Account) (hd : KeyDistinct l) :
    ∀ j1 j2 a1 a2, l.get? j1 = some a1 → l.get? j2 = some a2 → j1 ≠ j2 →
      toAccountKey a1 ≠ toAccountKey a2 := by
  have hpg := List.pairwise_iff_get.1 hd
  intro j1 j2 a1 a2 h1 h2 hne
  have hl1 : j1 < l.length := (List.get?_eq_some.1 h1).1
  have hl2 : j2 < l.length := (List.get?_eq_some.1 h2).1
  have he1 : l.get ⟨j1, hl1⟩ = a1 := by
    have := List.get?_eq_get hl1
    rw [h1] at this
    exact (Option.some.inj this).symm
  have he2 : l.get ⟨j2, hl2⟩ = a2 := by
    have := List.get?_eq_get hl2
    rw [h2] at this
    exact (Option.some.inj this).symm
  rcases Nat.lt_or_ge j1 j2 with hlt | hge
  · have := hpg ⟨j1, hl1⟩ ⟨j2, hl2⟩ hlt
    rwa [he1, he2] at this
  · have hlt2 : j2 < j1 := by omega
    have := hpg ⟨j2, hl2⟩ ⟨j1, hl1⟩ hlt2
    rw [he1, he2] at this
    exact fun hc => this hc.symm

theorem emailDistinct_index (l : List Account) (hd : EmailDistinct l) :
    ∀ j1 j2 a1 a2, l.get? j1 = some a1 → l.get? j2 = some a2 → j1 ≠ j2 →
      ∀ e, emailKey a1 = some e → emailKey a2 ≠ some e := by
  have hpg := List.pairwise_iff_get.1 hd
  intro j1 j2 a1 a2 h1 h2 hne e he1 he2
  have hl1 : j1 < l.length := (List.get?_eq_some.1 h1).1
  have hl2 : j2 < l.length := (List.get?_eq_some.1 h2).1
  have hg1 : l.get ⟨j1, hl1⟩ = a1 := by
    have := List.get?_eq_get hl1
    rw [h1] at this
    exact (Option.some.inj this).symm
  have hg2 : l.get ⟨j2, hl2⟩ = a2 := by
    have := List.get?_eq_get hl2
    rw [h2] at this
    exact (Option.some.inj this).symm
  rcases Nat.lt_or_ge j1 j2 with hlt | hge
  · have := hpg ⟨j1, hl1⟩ ⟨j2, hl2⟩ hlt
    rw [hg1, hg2] at this
    exact this e he1 he2
  · have hlt2 : j2 < j1 := by omega
    have := hpg ⟨j2, hl2⟩ ⟨j1, hl1⟩ hlt2
    rw [hg1, hg2] at this
    exact this e he2 he1

theorem FamMap.ofFun_get (g : Family → Int) (f : Family) : (FamMap.ofFun g).get f = g f := by
  cases f <;> rfl

theorem FamMap.get_ext (m1 m2 : FamMap) (h : ∀ f, m1.get f = m2.get f) : m1 = m2 := by
  cases m1
  cases m2
  rw [FamMap.mk.injEq]
  exact ⟨h .gpt52codex, h .codexMax, h .codex, h .gpt52, h .gpt51⟩

theorem StorageV3.ext' (s t : StorageV3) (h1 : s.version = t.version)
    (h2 : s.accounts = t.accounts) (h3 : s.activeIndex = t.activeIndex)
    (h4 : s.activeIndexByFamily = t.activeIndexByFamily) : s = t := by
  cases s
  cases t
  rw [StorageV3.mk.injEq]
  exact ⟨h1, h2, h3, h4⟩

theorem filterMap_toValid_map_acc (l : List Account) (hv : ∀ a ∈ l, ValidAccount a) :
    (l.map RawEntry.acc).filterMap toValidAccount = l := by
  induction l with
  | nil => rfl
  | cons a rest ih =>
    obtain ⟨r, hr, ht⟩ := hv a (List.mem_cons_self _ _)
    simp only [List.map_cons, List.filterMap_cons]
    have hval : toValidAccount (RawEntry.acc a) = some a := by
      simp only [toValidAccount, hr]
      rw [if_neg ht]
    rw [hval]
    rw [ih fun b hb => hv b (List.mem_cons_of_mem _ hb)]

theorem extract_map_acc (l : List Account) (i : Int) (hi : 0 ≤ i) (a : Account)
    (hg : l.get? i.toNat = some a) (hvalid : ValidAccount a) (hgood : GoodId a) :
    extractActiveKey (l.map RawEntry.acc) i = some (toAccountKey a) := by
  obtain ⟨r, hr, ht⟩ := hvalid
  have hkeyNone : a.accountId = none → toAccountKey a = r := by
    intro hid
    unfold toAccountKey
    rw [hid]
    dsimp only
    rw [hr]
    rfl
  have hkeyEmpty : ∀ id, a.accountId = some id → id = "" → toAccountKey a = r := by
    intro id hid hid0
    unfold toAccountKey
    rw [hid]
    dsimp only
    rw [if_pos hid0, hr]
    rfl
  have hkeyId : ∀ id, a.accountId = some id → id ≠ "" → toAccountKey a = id := by
    intro id hid hid0
    unfold toAccountKey
    rw [hid]
    dsimp only
    rw [if_neg hid0]
  unfold extractActiveKey
  rw [if_neg (by omega), List.get?_map, hg]
  simp only [Option.map_some']
  cases hid : a.accountId with
  | none =>
    rw [hr]
    dsimp only
    rw [if_neg ht, hkeyNone hid]
    rfl
  | some id =>
    dsimp only
    by_cases hid0 : id = ""
    · have htid : trimS id = "" := by rw [hid0]; rfl
      rw [if_pos htid, hr]
      dsimp only
      rw [if_neg ht, hkeyEmpty id hid hid0]
      rfl
    · have htid : trimS id ≠ "" := hgood id hid hid0
      rw [if_neg htid, hkeyId id hid hid0]
      rfl

theorem extract_nil (i : Int) : extractActiveKey [] i = none := by
  unfold extractActiveKey
  split
  · rfl
  · rfl

theorem keyFold_values_cover (accounts : List Account)
    (hdist : ∀ j1 j2 a1 a2, accounts.get? j1 = some a1 → accounts.get? j2 = some a2 →
      j1 ≠ j2 → toAccountKey a1 ≠ toAccountKey a2)
    (hne : ∀ a ∈ accounts, toAccountKey a ≠ "") :
    ∀ (is : List Nat) (m : List (String × Nat)),
      KeyMapInv accounts m →
      (∀ p ∈ m, p.2 ∉ is) →
      (∀ j ∈ is, j < accounts.length) →
      is.Nodup →
      ∀ i, (i ∈ is ∨ i ∈ m.map Prod.snd) →
        i ∈ (keyFold accounts is m).map Prod.snd := by
  intro is
  induction is with
  | nil =>
    intro m _ _ _ _ i hi
    rcases hi with hi | hi
    · exact absurd hi (List.not_mem_nil i)
    · exact hi
  | cons i0 rest ih =>
    intro m hinv hdisj hbound hnd i hi
    show i ∈ (keyFold accounts rest (keyStep accounts m i0)).map Prod.snd
    have hi0len : i0 < accounts.length := hbound i0 (List.mem_cons_self _ _)
    have hga : accounts.get? i0 = some (accounts.get ⟨i0, hi0len⟩) :=
      List.get?_eq_get hi0len
    have hka : toAccountKey (accounts.get ⟨i0, hi0len⟩) ≠ "" :=
      hne _ (List.get?_mem hga)
    have hlk : alookup (toAccountKey (accounts.get ⟨i0, hi0len⟩)) m = none := by
      cases hl : alookup (toAccountKey (accounts.get ⟨i0, hi0len⟩)) m with
      | none => rfl
      | some j =>
        exfalso
        have hjm := alookup_some_mem _ _ _ hl
        obtain ⟨a', hg', hk', _⟩ := hinv.1 _ hjm
        have hjnotin := hdisj _ hjm
        have hji0 : j ≠ i0 := fun he => hjnotin (he ▸ List.mem_cons_self _ _)
        exact hdist j i0 a' (accounts.get ⟨i0, hi0len⟩) hg' hga hji0 hk'
    have hstep : keyStep accounts m i0 =
        m ++ [(toAccountKey (accounts.get ⟨i0, hi0len⟩), i0)] := by
      simp only [keyStep, hga]
      rw [if_neg hka, hlk]
      exact aset_eq_append _ _ _ hlk
    rw [hstep]
    apply ih
    · rw [← hstep]
      exact keyStep_inv accounts m i0 hinv
    · intro p hp
      rcases List.mem_append.1 hp with hp1 | hp1
      · intro hin
        exact hdisj p hp1 (List.mem_cons_of_mem _ hin)
      · have hpe : p = (toAccountKey (accounts.get ⟨i0, hi0len⟩), i0) := by simpa using hp1
        rw [hpe]
        exact (List.nodup_cons.1 hnd).1
    · exact fun j hj => hbound j (List.mem_cons_of_mem _ hj)
    · exact (List.nodup_cons.1 hnd).2
    · rcases hi with hi | hi
      · rcases List.mem_cons.1 hi with hi1 | hi1
        · right
          rw [List.map_append]
          apply List.mem_append.2
          right
          simp [hi1]
        · exact Or.inl hi1
      · right
        rw [List.map_append]
        exact List.mem_append.2 (Or.inl hi)

theorem deduplicateAccountsByKey_id (accounts : List Account)
    (hd : KeyDistinct accounts) (hne : ∀ a ∈ accounts, toAccountKey a ≠ "") :
    deduplicateAccountsByKey accounts = accounts := by
  unfold deduplicateAccountsByKey
  apply selectIdx_eq_self
  intro j hj
  apply (any_eq_mem _ _).2
  have hcov := keyFold_values_cover accounts (keyDistinct_index _ hd) hne
    (List.range accounts.length) [] ⟨by simp, by simp⟩ (by simp)
    (fun j hj => List.mem_range.1 hj) (List.nodup_range _) j
    (Or.inl (List.mem_range.2 hj))
  simpa using hcov

theorem emailFold_cover (accounts : List Account)
    (hdist : ∀ j1 j2 a1 a2, accounts.get? j1 = some a1 → accounts.get? j2 = some a2 →
      j1 ≠ j2 → ∀ e, emailKey a1 = some e → emailKey a2 ≠ some e) :
    ∀ (is : List Nat) (st : List (String × Nat) × List Nat),
      EmailMapInv accounts st →
      (∀ p ∈ st.1, p.2 ∉ is) →
      (∀ j ∈ is, j < accounts.length) →
      is.Nodup →
      ∀ i, (i ∈ is ∨ i ∈ st.1.map Prod.snd ∨ i ∈ st.2) →
        i ∈ (emailFold accounts is st).1.map Prod.snd ∨
          i ∈ (emailFold accounts is st).2 := by
  intro is
  induction is with
  | nil =>
    intro st _ _ _ _ i hi
    rcases hi with hi | hi | hi
    · exact absurd hi (List.not_mem_nil i)
    · exact Or.inl hi
    · exact Or.inr hi
  | cons i0 rest ih =>
    intro st hinv hdisj hbound hnd i hi
    show i ∈ (emailFold accounts rest (emailStep accounts st i0)).1.map Prod.snd ∨
      i ∈ (emailFold accounts rest (emailStep accounts st i0)).2
    have hi0len : i0 < accounts.length := hbound i0 (List.mem_cons_self _ _)
    have hga : accounts.get? i0 = some (accounts.get ⟨i0, hi0len⟩) :=
      List.get?_eq_get hi0len
    have hinv' := emailStep_inv accounts st i0 hinv
    have hrest_ok : (∀ j ∈ rest, j < accounts.length) ∧ rest.Nodup :=
      ⟨fun j hj => hbound j (List.mem_cons_of_mem _ hj), (List.nodup_cons.1 hnd).2⟩
    cases hek : emailKey (accounts.get ⟨i0, hi0len⟩) with
    | none =>
      have hstep : emailStep accounts st i0 = (st.1, i0 :: st.2) := by
        simp only [emailStep, hga, hek]
      rw [hstep]
      apply ih
      · rw [← hstep]
        exact hinv'
      · exact fun p hp hin => hdisj p hp (List.mem_cons_of_mem _ hin)
      · exact hrest_ok.1
      · exact hrest_ok.2
      · rcases hi with hi | hi | hi
        · rcases List.mem_cons.1 hi with hi1 | hi1
          · exact Or.inr (Or.inr (hi1 ▸ List.mem_cons_self _ _))
          · exact Or.inl hi1
        · exact Or.inr (Or.inl hi)
        · exact Or.inr (Or.inr (List.mem_cons_of_mem _ hi))
    | some e =>
      have hlk : alookup e st.1 = none := by
        cases hl : alookup e st.1 with
        | none => rfl
        | some j =>
          exfalso
          have hjm := alookup_some_mem _ _ _ hl
          obtain ⟨a', hg', hk'⟩ := hinv.1 _ hjm
          have hjnotin := hdisj _ hjm
          have hji0 : j ≠ i0 := fun he => hjnotin (he ▸ List.mem_cons_self _ _)
          exact hdist j i0 a' (accounts.get ⟨i0, hi0len⟩) hg' hga hji0 e hk' hek
      have hstep : emailStep accounts st i0 = (st.1 ++ [(e, i0)], st.2) := by
        simp only [emailStep, hga, hek]
        rw [hlk]
        dsimp only
        rw [aset_eq_append _ _ _ hlk]
      rw [hstep]
      apply ih
      · rw [← hstep]
        exact hinv'
      · intro p hp
        rcases List.mem_append.1 hp with hp1 | hp1
        · exact fun hin => hdisj p hp1 (List.mem_cons_of_mem _ hin)
        · have hpe : p = (e, i0) := by simpa using hp1
          rw [hpe]
          exact (List.nodup_cons.1 hnd).1
      · exact hrest_ok.1
      · exact hrest_ok.2
      · rcases hi with hi | hi | hi
        · rcases List.mem_cons.1 hi with hi1 | hi1
          · right
            left
            rw [List.map_append]
            apply List.mem_append.2
            right
            simp [hi1]
          · exact Or.inl hi1
        · right
          left
          rw [List.map_append]
          exact List.mem_append.2 (Or.inl hi)
        · exact Or.inr (Or.inr hi)

theorem deduplicateAccountsByEmail_id (accounts : List Account)
    (hd : EmailDistinct accounts) : deduplicateAccountsByEmail accounts = accounts := by
  unfold deduplicateAccountsByEmail
  apply selectIdx_eq_self
  intro j hj
  have hcov := emailFold_cover accounts (emailDistinct_index _ hd)
    (List.range accounts.length) ([], []) ⟨by simp, by simp, by simp⟩ (by simp)
    (fun j hj => List.mem_range.1 hj) (List.nodup_range _) j
    (Or.inl (List.mem_range.2 hj))
  rw [Bool.or_eq_true]
  rcases hcov with hcov | hcov
  · right
    apply (any_eq_mem _ _).2
    simpa using hcov
  · left
    apply (any_eq_mem _ _).2
    simpa using hcov

theorem normalizeCore_fam (data : Raw) (raws : List RawEntry) (f : Family) :
    (normalizeCore data raws).activeIndexByFamily.get f =
      (let rawActiveIndex := clampIndex (data.activeIndex.getD 0) raws.length
       let famRaw : Family → Option Int :=
         if data.version = some 1 then fun _ => data.activeIndex
         else data.activeIndexByFamily.getD fun _ => none
       let deduped := deduplicateAccountsByEmail
         (deduplicateAccountsByKey (raws.filterMap toValidAccount))
       let rawIndex : Int := (famRaw f).getD rawActiveIndex
       let clampedRawIndex := clampIndex rawIndex raws.length
       let familyKey := extractActiveKey raws clampedRawIndex
       let base := clampIndex rawIndex deduped.length
       match familyKey with
       | some k =>
         if 0 < deduped.length then
           match findKeyIdx k deduped with
           | some j => (j : Int)
           | none => base
         else base
       | none => base) :=
  FamMap.ofFun_get _ f

theorem activeExpr_range (D : List Account) (fk : Option String) (v : Int) :
    0 ≤ (if D.length = 0 then 0
         else
           match fk with
           | some k =>
             match findKeyIdx k D with
             | some j => (j : Int)
             | none => clampIndex v D.length
           | none => clampIndex v D.length) ∧
    (D.length = 0 →
      (if D.length = 0 then 0
       else
         match fk with
         | some k =>
           match findKeyIdx k D with
           | some j => (j : Int)
           | none => clampIndex v D.length
         | none => clampIndex v D.length) = 0) ∧
    (0 < D.length →
      (if D.length = 0 then 0
       else
         match fk with
         | some k =>
           match findKeyIdx k D with
           | some j => (j : Int)
           | none => clampIndex v D.length
         | none => clampIndex v D.length) < (D.length : Int)) := by
  by_cases h0 : D.length = 0
  · rw [if_pos h0]
    exact ⟨le_refl 0, fun _ => rfl, fun h => by omega⟩
  · rw [if_neg h0]
    have hpos : 0 < D.length := Nat.pos_of_ne_zero h0
    cases fk with
    | none =>
      exact ⟨clampIndex_nonneg _ _, fun h => absurd h h0, fun _ => clampIndex_lt _ _ hpos⟩
    | some k =>
      dsimp only
      cases hf : findKeyIdx k D with
      | some j =>
        dsimp only
        refine ⟨Int.natCast_nonneg j, fun h => absurd h h0, fun _ => ?_⟩
        exact_mod_cast findKeyIdx_lt k D j hf
      | none =>
        exact ⟨clampIndex_nonneg _ _, fun h => absurd h h0, fun _ => clampIndex_lt _ _ hpos⟩

theorem famExpr_range (D : List Account) (fk : Option String) (v : Int) :
    (D.length = 0 →
      (match fk with
       | some k =>
         if 0 < D.length then
           match findKeyIdx k D with
           | some j => (j : Int)
           | none => clampIndex v D.length
         else clampIndex v D.length
       | none => clampIndex v D.length) = 0) ∧
    (0 < D.length →
      0 ≤ (match fk with
           | some k =>
             if 0 < D.length then
               match findKeyIdx k D with
               | some j => (j : Int)
               | none => clampIndex v D.length
             else clampIndex v D.length
           | none => clampIndex v D.length) ∧
      (match fk with
       | some k =>
         if 0 < D.length then
           match findKeyIdx k D with
           | some j => (j : Int)
           | none => clampIndex v D.length
         else clampIndex v D.length
       | none => clampIndex v D.length) < (D.length : Int)) := by
  cases fk with
  | none =>
    refine ⟨fun h0 => ?_, fun hpos => ⟨clampIndex_nonneg _ _, clampIndex_lt _ _ hpos⟩⟩
    rw [h0, clampIndex_zero]
  | some k =>
    dsimp only
    constructor
    · intro h0
      rw [if_neg (by omega), h0, clampIndex_zero]
    · intro hpos
      rw [if_pos hpos]
      cases hf : findKeyIdx k D with
      | some j =>
        dsimp only
        refine ⟨Int.natCast_nonneg j, ?_⟩
        exact_mod_cast findKeyIdx_lt k D j hf
      | none => exact ⟨clampIndex_nonneg _ _, clampIndex_lt _ _ hpos⟩

theorem normalizeCore_activeIndex_range (data : Raw) (raws : List RawEntry) :
    0 ≤ (normalizeCore data raws).activeIndex ∧
    ((normalizeCore data raws).accounts.length = 0 →
      (normalizeCore data raws).activeIndex = 0) ∧
    (0 < (normalizeCore data raws).accounts.length →
      (normalizeCore data raws).activeIndex <
        ((normalizeCore data raws).accounts.length : Int)) := by
  rw [normalizeCore_activeIndex, normalizeCore_accounts]
  exact activeExpr_range _ _ _

theorem normalizeCore_fam_range (data : Raw) (raws : List RawEntry) (f : Family) :
    ((normalizeCore data raws).accounts.length = 0 →
      (normalizeCore data raws).activeIndexByFamily.get f = 0) ∧
    (0 < (normalizeCore data raws).accounts.length →
      0 ≤ (normalizeCore data raws).activeIndexByFamily.get f ∧
      (normalizeCore data raws).activeIndexByFamily.get f <
        ((normalizeCore data raws).accounts.length : Int)) := by
  rw [normalizeCore_fam, normalizeCore_accounts]
  exact famExpr_range _ _ _

theorem normalize_fixpoint (A : List Account) (I : Int) (F : FamMap)
    (hvalid : ∀ a ∈ A, ValidAccount a)
    (hgood : ∀ a ∈ A, GoodId a)
    (hkd : KeyDistinct A) (hed : EmailDistinct A)
    (hI0 : A.length = 0 → I = 0)
    (hIr : 0 < A.length → 0 ≤ I ∧ I < (A.length : Int))
    (hF0 : ∀ f, A.length = 0 → F.get f = 0)
    (hFr : ∀ f, 0 < A.length → 0 ≤ F.get f ∧ F.get f < (A.length : Int)) :
    normalizeAccountStorage (StorageV3.toRaw ⟨3, A, I, F⟩) = some ⟨3, A, I, F⟩ := by
  have hne : ∀ a ∈ A, toAccountKey a ≠ "" := fun a ha => validAccount_key_ne a (hvalid a ha)
  have hDA : deduplicateAccountsByEmail (deduplicateAccountsByKey
      ((A.map RawEntry.acc).filterMap toValidAccount)) = A := by
    rw [filterMap_toValid_map_acc A hvalid, deduplicateAccountsByKey_id A hkd hne,
      deduplicateAccountsByEmail_id A hed]
  have hclamp : ∀ v : Int, (A.length = 0 → v = 0) → (0 < A.length → 0 ≤ v ∧ v < A.length) →
      clampIndex v (A.map RawEntry.acc).length = v := by
    intro v hv0 hvr
    rw [List.length_map]
    by_cases h0 : A.length = 0
    · rw [h0, clampIndex_zero, hv0 h0]
    · exact clampIndex_of_range v A.length (hvr (Nat.pos_of_ne_zero h0)).1
        (hvr (Nat.pos_of_ne_zero h0)).2
  have hremap : ∀ v : Int, (A.length = 0 → v = 0) → (0 < A.length → 0 ≤ v ∧ v < A.length) →
      (match extractActiveKey (A.map RawEntry.acc) v with
       | some k =>
         if 0 < A.length then
           match findKeyIdx k A with
           | some j => (j : Int)
           | none => clampIndex v A.length
         else clampIndex v A.length
       | none => clampIndex v A.length) = v := by
    intro v hv0 hvr
    by_cases h0 : A.length = 0
    · have hA : A = [] := List.length_eq_zero.1 h0
      subst hA
      rw [List.map_nil, extract_nil]
      dsimp only
      rw [List.length_nil, clampIndex_zero]
      exact (hv0 rfl).symm
    · have hpos := Nat.pos_of_ne_zero h0
      have hvr' := hvr hpos
      have hlt : v.toNat < A.length := by omega
      have hgav : A.get? v.toNat = some (A.get ⟨v.toNat, hlt⟩) := List.get?_eq_get hlt
      have hmem := List.get?_mem hgav
      rw [extract_map_acc A v hvr'.1 _ hgav (hvalid _ hmem) (hgood _ hmem)]
      dsimp only
      rw [if_pos hpos, findKeyIdx_of_distinct A hkd v.toNat _ hgav]
      dsimp only
      exact Int.toNat_of_nonneg hvr'.1
  unfold normalizeAccountStorage
  rw [if_pos (show (StorageV3.toRaw ⟨3, A, I, F⟩).version = some 1 ∨
    (StorageV3.toRaw ⟨3, A, I, F⟩).version = some 3 from Or.inr rfl)]
  show some (normalizeCore (StorageV3.toRaw ⟨3, A, I, F⟩) (A.map RawEntry.acc)) =
    some ⟨3, A, I, F⟩
  congr 1
  apply StorageV3.ext'
  · rfl
  · rw [normalizeCore_accounts]
    exact hDA
  · rw [normalizeCore_activeIndex]
    have hgd : (StorageV3.toRaw ⟨3, A, I, F⟩).activeIndex.getD 0 = I := rfl
    have hrawsacc :
        (StorageV3.toRaw ⟨3, A, I, F⟩).accounts = some (A.map RawEntry.acc) := rfl
    rw [hgd, hDA, hclamp I hI0 hIr]
    show (if A.length = 0 then 0
          else
            match extractActiveKey (A.map RawEntry.acc) I with
            | some k =>
              match findKeyIdx k A with
              | some j => (j : Int)
              | none => clampIndex I A.length
            | none => clampIndex I A.length) = I
    by_cases h0 : A.length = 0
    · rw [if_pos h0]
      exact (hI0 h0).symm
    · rw [if_neg h0]
      have hpos := Nat.pos_of_ne_zero h0
      have hIr' := hIr hpos
      have hlt : I.toNat < A.length := by omega
      have hgaI : A.get? I.toNat = some (A.get ⟨I.toNat, hlt⟩) := List.get?_eq_get hlt
      have hmem := List.get?_mem hgaI
      rw [extract_map_acc A I hIr'.1 _ hgaI (hvalid _ hmem) (hgood _ hmem)]
      dsimp only
      rw [findKeyIdx_of_distinct A hkd I.toNat _ hgaI]
      dsimp only
      exact Int.toNat_of_nonneg hIr'.1
  · apply FamMap.get_ext
    intro f
    rw [normalizeCore_fam]
    dsimp only
    have hver : (StorageV3.toRaw ⟨3, A, I, F⟩).version = some 3 := rfl
    rw [hver, if_neg (by decide : ¬(some 3 : Option Int) = some 1)]
    have hfamfield : (StorageV3.toRaw ⟨3, A, I, F⟩).activeIndexByFamily.getD
        (fun _ => none) f = some (F.get f) := rfl
    rw [hfamfield]
    have hgdf : (some (F.get f)).getD
        (clampIndex ((StorageV3.toRaw ⟨3, A, I, F⟩).activeIndex.getD 0)
          (A.map RawEntry.acc).length) = F.get f := rfl
    rw [hgdf, hDA, hclamp (F.get f) (hF0 f) (hFr f)]
    exact hremap (F.get f) (hF0 f) (hFr f)

theorem processEvent_after_winner {T : Type} (cands : List Nat) (st : RaceSt T)
    (ev : Nat × POutcome T) (hw : st.winner.isSome = true) :
    (processEvent cands st ev).winner = st.winner ∧
    (processEvent cands st ev).resolvedVal = st.resolvedVal ∧
    (processEvent cands st ev).aborts = st.aborts := by
  obtain ⟨p, o⟩ := ev
  cases o with
  | success v =>
    simp only [processEvent]
    rw [if_pos hw]
    refine ⟨?_, ?_, ?_⟩ <;> trivial
  | failure =>
    obtain ⟨x, hx⟩ := Option.isSome_iff_exists.1 hw
    have hni : st.winner.isNone = false := by rw [hx]; rfl
    simp only [processEvent]
    refine ⟨trivial, ?_, trivial⟩
    dsimp only
    rw [if_neg fun hc => by rw [hni] at hc; exact absurd hc.2 (by simp)]

theorem probeFold_after_winner {T : Type} (cands : List Nat)
    (evs : List (Nat × POutcome T)) (st : RaceSt T) (hw : st.winner.isSome = true) :
    (evs.foldl (processEvent cands) st).winner = st.winner ∧
    (evs.foldl (processEvent cands) st).resolvedVal = st.resolvedVal ∧
    (evs.foldl (processEvent cands) st).aborts = st.aborts := by
  induction evs generalizing st with
  | nil => exact ⟨rfl, rfl, rfl⟩
  | cons e rest ih =>
    have hstep := processEvent_after_winner cands st e hw
    have hw' : (processEvent cands st e).winner.isSome = true := by
      rw [hstep.1]
      exact hw
    have hrest := ih (processEvent cands st e) hw'
    exact ⟨hrest.1.trans hstep.1, hrest.2.1.trans hstep.2.1, hrest.2.2.trans hstep.2.2⟩

theorem probeFold_failures {T : Type} (cands : List Nat)
    (evs : List (Nat × POutcome T)) (st : RaceSt T)
    (hall : ∀ e ∈ evs, e.2 = POutcome.failure)
    (hw : st.winner = none) (hrv : st.resolvedVal = none)
    (hlt : st.resolvedCount + evs.length < cands.length) :
    evs.foldl (processEvent cands) st =
      ⟨none, st.resolvedCount + evs.length, none, st.aborts⟩ := by
  induction evs generalizing st with
  | nil =>
    obtain ⟨w, c, rv, ab⟩ := st
    dsimp only at hw hrv ⊢
    rw [hw, hrv]
    simp
  | cons e rest ih =>
    obtain ⟨p, o⟩ := e
    have ho : o = POutcome.failure := hall (p, o) (List.mem_cons_self _ _)
    subst ho
    show (rest.foldl (processEvent cands)
      (processEvent cands st (p, POutcome.failure))) = _
    have hne : ¬(st.resolvedCount + 1 = cands.length ∧ st.winner.isNone = true) := by
      intro hc
      simp only [List.length_cons] at hlt
      omega
    have hstep : processEvent cands st (p, POutcome.failure) =
        ⟨st.winner, st.resolvedCount + 1, st.resolvedVal, st.aborts⟩ := by
      simp only [processEvent]
      rw [if_neg hne]
    rw [hstep]
    have hres := ih ⟨st.winner, st.resolvedCount + 1, st.resolvedVal, st.aborts⟩
      (fun e he => hall e (List.mem_cons_of_mem _ he)) hw hrv
      (by simp only [List.length_cons] at hlt; dsimp only; omega)
    rw [hres]
    simp only [List.length_cons]
    congr 1
    omega

theorem processEvent_success_none {T : Type} (cands : List Nat) (c : Nat)
    (ab : Nat → Nat) (j : Nat) (v : T) (aj : Nat) (hj : cands.get? j = some aj) :
    processEvent cands ⟨none, c, none, ab⟩ (j, POutcome.success v) =
      ⟨some (j, v), c, some (some (aj, v)),
        fun p => ab p +
          if (cands.get? p).isSome ∧ cands.get? p ≠ some aj then 1 else 0⟩ := by
  simp only [processEvent]
  rw [if_neg (by simp), hj]

theorem probeFold_failures_exact {T : Type} (cands : List Nat)
    (evs : List (Nat × POutcome T)) (st : RaceSt T)
    (hall : ∀ e ∈ evs, e.2 = POutcome.failure)
    (hw : st.winner = none) (hrv : st.resolvedVal = none)
    (heq : st.resolvedCount + evs.length = cands.length)
    (hne : evs ≠ []) :
    (evs.foldl (processEvent cands) st).resolvedVal = some none := by
  induction evs generalizing st with
  | nil => exact absurd rfl hne
  | cons e rest ih =>
    obtain ⟨p, o⟩ := e
    have ho : o = POutcome.failure := hall (p, o) (List.mem_cons_self _ _)
    subst ho
    show (rest.foldl (processEvent cands)
      (processEvent cands st (p, POutcome.failure))).resolvedVal = some none
    cases hrest : rest with
    | nil =>
      have hc : st.resolvedCount + 1 = cands.length ∧ st.winner.isNone = true := by
        constructor
        · simp only [List.length_cons, hrest, List.length_nil] at heq
          omega
        · rw [hw]
          rfl
      have hstep : processEvent cands st (p, POutcome.failure) =
          ⟨st.winner, st.resolvedCount + 1, some none, st.aborts⟩ := by
        simp only [processEvent]
        rw [if_pos hc, hrv]
      rw [hstep]
      rfl
    | cons e2 rest2 =>
      have hne2 : ¬(st.resolvedCount + 1 = cands.length ∧ st.winner.isNone = true) := by
        intro hc
        rw [hrest] at heq
        simp only [List.length_cons] at heq
        omega
      have hstep : processEvent cands st (p, POutcome.failure) =
          ⟨st.winner, st.resolvedCount + 1, st.resolvedVal, st.aborts⟩ := by
        simp only [processEvent]
        rw [if_neg hne2]
      rw [← hrest]
      rw [hstep]
      apply ih ⟨st.winner, st.resolvedCount + 1, st.resolvedVal, st.aborts⟩
        (fun e he => hall e (List.mem_cons_of_mem _ he)) hw hrv
      · simp only [List.length_cons] at heq
        dsimp only
        omega
      · rw [hrest]
        simp

theorem tempName_ne (path : String) (now : Int) : tempName path now ≠ path := by
  intro h
  have hl := congrArg String.length h
  rw [tempName] at hl
  have h1 : ("." : String).length = 1 := rfl
  have h2 : (".tmp" : String).length = 4 := rfl
  simp only [String.length_append, h1, h2] at hl
  omega

theorem FS.erase_self (fs : FS) (p : String) : fs.erase p p = none := by
  simp [FS.erase]

theorem FS.erase_ne (fs : FS) (p q : String) (h : q ≠ p) : fs.erase p q = fs q := by
  simp [FS.erase, h]

theorem FS.write_ne (fs : FS) (p c : String) (q : String) (h : q ≠ p) :
    fs.write p c q = fs q := by
  simp [FS.write, h]

/-! ## Claim theorems -/

/-- C6: with the default configuration (threshold 3 in a 60 s window,
reset 30 s, one half-open attempt), three failures at t = 0 open the
breaker; `canExecute` at t = 30001 returns true and leaves the breaker
half-open; a second `canExecute` throws `CircuitOpenError`; a subsequent
`recordSuccess` closes the breaker and clears the failure list. -/
theorem C6_circuit_breaker_scenario :
    scenarioBreaker3.state = .open ∧
    (scenarioBreaker3.canExecute 30001).1 = .ok true ∧
    (scenarioBreaker3.canExecute 30001).2.state = .halfOpen ∧
    ((scenarioBreaker3.canExecute 30001).2.canExecute 30001).1 =
      .error ⟨"Circuit is half-open"⟩ ∧
    ((((scenarioBreaker3.canExecute 30001).2.canExecute 30001).2.recordSuccess
        30001).state = CircuitState.closed ∧
      (((scenarioBreaker3.canExecute 30001).2.canExecute 30001).2.recordSuccess
        30001).failures = []) := by
  decide

/-- C3: normalizing the literal v1 input of scenario 1 yields version 3,
accounts `[A(addedAt 200, lastUsed 200), B]`, `activeIndex` 0 and every
known family mapped to 0; and in `migrateV1ToV3` a scalar
`rateLimitResetTime` is replicated to every known family's quota entry
exactly when it is strictly in the future, expired values being
discarded. -/
theorem C3_migration_scenario :
    normalizeAccountStorage scenarioV1Raw =
      some ⟨3, [scenarioV1Acc2, scenarioV1Acc3], 0, ⟨0, 0, 0, 0, 0⟩⟩ ∧
    (∀ (now t : Int) (a : Account), a.rateLimitResetTime = some t → t > now →
      ∃ m, (migrateAccountV1 now a).rateLimitResetTimes = some m ∧
        ∀ f : Family, m f = t) ∧
    (∀ (now : Int) (a : Account), (∀ t, a.rateLimitResetTime = some t → ¬ t > now) →
      (migrateAccountV1 now a).rateLimitResetTimes = none) ∧
    (∀ (now : Int) (v1 : StorageV1),
      (migrateV1ToV3 now v1).accounts = v1.accounts.map (migrateAccountV1 now)) := by
  refine ⟨by decide, ?_, ?_, fun _ _ => rfl⟩
  · intro now t a h hfut
    refine ⟨fun _ => t, ?_, fun f => rfl⟩
    simp [migrateAccountV1, h, hfut]
  · intro now a h
    unfold migrateAccountV1
    cases hr : a.rateLimitResetTime with
    | none => rfl
    | some t =>
      simp only [hr]
      rw [if_neg (h t hr)]

/-- C3 witness: the migration property applied to an account whose reset
time 10 lies in the future of `now = 5`. -/
theorem C3_migration_scenario_witness :
    ∃ m, (migrateAccountV1 5 ⟨none, none, some "r", none, none, some 10⟩).rateLimitResetTimes
        = some m ∧ ∀ f : Family, m f = 10 :=
  C3_migration_scenario.2.1 5 10 ⟨none, none, some "r", none, none, some 10⟩ rfl (by decide)

/-- C5: when the written temp file (`<path>.<ms>.tmp`) has size 0,
`saveAccounts` unlinks the temp file and throws a `StorageError` with
code `"EEMPTY"` carrying the target path and the hint produced by
`formatStorageErrorHint` for `"EEMPTY"` (the literal "File written but is
empty. …"), without renaming over the target; and on every failing save
the previously committed target file is unchanged. -/
theorem C5_save_eempty :
    (∀ (b : FsBehavior) (fs : FS) (path : String) (now : Int) (isW : Bool) (w : String),
      b.mkdirFails = none → b.writeOutcome = .ok w → b.statFails = none →
      w.length = 0 →
        saveAccounts b fs path now isW =
          (.error ⟨"EEMPTY", path, formatStorageErrorHint "EEMPTY" path isW⟩,
            (fs.write (tempName path now) w).erase (tempName path now)) ∧
        (saveAccounts b fs path now isW).2 (tempName path now) = none ∧
        (∀ q, q ≠ tempName path now → (saveAccounts b fs path now isW).2 q = fs q)) ∧
    (∀ (b : FsBehavior) (fs : FS) (path : String) (now : Int) (isW : Bool)
        (e : StorageErr) (fs' : FS),
      saveAccounts b fs path now isW = (.error e, fs') → fs' path = fs path) := by
  constructor
  · intro b fs path now isW w hm hw hs hlen
    have hsave : saveAccounts b fs path now isW =
        (.error ⟨"EEMPTY", path, formatStorageErrorHint "EEMPTY" path isW⟩,
          (fs.write (tempName path now) w).erase (tempName path now)) := by
      simp only [saveAccounts, hm, hw, hs]
      rw [if_pos hlen]
      rfl
    refine ⟨hsave, ?_, ?_⟩
    · rw [hsave]
      exact FS.erase_self _ _
    · intro q hq
      rw [hsave]
      show ((fs.write (tempName path now) w).erase (tempName path now)) q = fs q
      rw [FS.erase_ne _ _ _ hq, FS.write_ne _ _ _ _ hq]
  · intro b fs path now isW e fs' h
    have hne : path ≠ tempName path now := fun hc => tempName_ne path now hc.symm
    cases hm : b.mkdirFails with
    | some code =>
      simp only [saveAccounts, hm] at h
      have h2 : fs.erase (tempName path now) = fs' := congrArg Prod.snd h
      rw [← h2, FS.erase_ne _ _ _ hne]
    | none =>
      cases hw : b.writeOutcome with
      | error code =>
        simp only [saveAccounts, hm, hw] at h
        have h2 : fs.erase (tempName path now) = fs' := congrArg Prod.snd h
        rw [← h2, FS.erase_ne _ _ _ hne]
      | ok w =>
        cases hs : b.statFails with
        | some code =>
          simp only [saveAccounts, hm, hw, hs] at h
          have h2 : (fs.write (tempName path now) w).erase (tempName path now) = fs' :=
            congrArg Prod.snd h
          rw [← h2, FS.erase_ne _ _ _ hne, FS.write_ne _ _ _ _ hne]
        | none =>
          simp only [saveAccounts, hm, hw, hs] at h
          by_cases hz : w.length = 0
          · rw [if_pos hz] at h
            have h2 : (fs.write (tempName path now) w).erase (tempName path now) = fs' :=
              congrArg Prod.snd h
            rw [← h2, FS.erase_ne _ _ _ hne, FS.write_ne _ _ _ _ hne]
          · rw [if_neg hz] at h
            cases hr : b.renameFails with
            | some code =>
              rw [hr] at h
              have h2 : (fs.write (tempName path now) w).erase (tempName path now) = fs' :=
                congrArg Prod.snd h
              rw [← h2, FS.erase_ne _ _ _ hne, FS.write_ne _ _ _ _ hne]
            | none =>
              rw [hr] at h
              exact absurd (congrArg Prod.fst h) (by simp)

/-- C5 witness: the theorem at a concrete filesystem holding `"old"` at
`"target"`, with an injected 0-byte write. -/
theorem C5_save_eempty_witness :
    saveAccounts ⟨none, .ok "", none, none⟩
        (fun q => if q = "target" then some "old" else none) "target" 42 false =
      (.error ⟨"EEMPTY", "target", formatStorageErrorHint "EEMPTY" "target" false⟩,
        (FS.write (fun q => if q = "target" then some "old" else none)
          (tempName "target" 42) "").erase (tempName "target" 42)) ∧
    (saveAccounts ⟨none, .ok "", none, none⟩
        (fun q => if q = "target" then some "old" else none) "target" 42 false).2
      "target" = some "old" := by
  have h := (C5_save_eempty.1 ⟨none, .ok "", none, none⟩
    (fun q => if q = "target" then some "old" else none) "target" 42 false "" rfl rfl rfl rfl)
  exact ⟨h.1, by
    rw [h.2.2 "target" (fun hc => tempName_ne "target" 42 hc.symm)]
    rfl⟩

/-- C8: with `{maxAttempts := 5, windowMs := 60000}` and five attempts
recorded at t = 0 under `"user@example.com"`, `canAttemptAuth` for
`"USER@Example.com"` is false at t = 0 (keys are lowercased and trimmed
before comparison), while at t = 61000 the five attempts have left the
sliding window: `getAttemptsRemaining` is 5 and `canAttemptAuth` is
true. -/
theorem C8_auth_rate_limit_scenario :
    canAttemptAuth DEFAULT_AUTH_RATE_LIMIT_CONFIG scenarioAttempts "USER@Example.com" 0
        = false ∧
    getAttemptsRemaining DEFAULT_AUTH_RATE_LIMIT_CONFIG scenarioAttempts
        "USER@Example.com" 61000 = 5 ∧
    canAttemptAuth DEFAULT_AUTH_RATE_LIMIT_CONFIG scenarioAttempts "USER@Example.com" 61000
        = true := by
  decide

/-- C10: whenever `importAccounts` succeeds, the returned `imported` is
the deduplicated merged total minus the number of previously stored
accounts, and `skipped` is the import file's normalized account count
minus `imported`; at the concrete pool `importExistRaw` (two accounts)
merged with the single-account import file `importFileRaw`, whose account
collides by key with one existing account and by email with the other,
the returned counts are `imported = -1`, `total = 1`, `skipped = 2`. -/
theorem C10_import_counts :
    (∀ (maxAccounts : Nat) (fileRaw : Raw) (existing : Option StorageV3)
        (res : ImportRes),
      importAccounts maxAccounts fileRaw existing = .ok res →
      ∃ normalized, normalizeAccountStorage fileRaw = some normalized ∧
        res.imported =
          ((deduplicateAccountsByEmail (deduplicateAccountsByKey
              (((existing.map fun s => s.accounts).getD []) ++
                normalized.accounts))).length : Int) -
            (((existing.map fun s => s.accounts).getD []).length : Int) ∧
        res.skipped = (normalized.accounts.length : Int) - res.imported) ∧
    ((normalizeAccountStorage importExistRaw).elim (Except.error "unreachable")
        fun ex => importAccounts 100 importFileRaw (some ex)) = .ok ⟨-1, 1, 2⟩ := by
  constructor
  · intro maxAccounts fileRaw existing res h
    cases hn : normalizeAccountStorage fileRaw with
    | none =>
      simp only [importAccounts, hn] at h
      exact absurd h (by simp)
    | some normalized =>
      refine ⟨normalized, rfl, ?_⟩
      simp only [importAccounts, hn] at h
      split at h
      · exact absurd h (by simp)
      · have h2 := (Except.ok.inj h).symm
        rw [h2]
        exact ⟨rfl, rfl⟩
  · decide

/-- C10 witness: the general count formula applied to the concrete
negative-import instance (where `imported = -1`). -/
theorem C10_import_counts_witness :
    ∃ normalized, normalizeAccountStorage importFileRaw = some normalized ∧
      (-1 : Int) =
        ((deduplicateAccountsByEmail (deduplicateAccountsByKey
            ((((some ⟨3, [importExistAcc1, importExistAcc2], 0, ⟨0, 0, 0, 0, 0⟩⟩ :
                Option StorageV3).map fun s => s.accounts).getD []) ++
              normalized.accounts))).length : Int) -
          ((((some ⟨3, [importExistAcc1, importExistAcc2], 0, ⟨0, 0, 0, 0, 0⟩⟩ :
              Option StorageV3).map fun s => s.accounts).getD []).length : Int) ∧
      (2 : Int) = (normalized.accounts.length : Int) - (-1 : Int) :=
  C10_import_counts.1 100 importFileRaw
    (some ⟨3, [importExistAcc1, importExistAcc2], 0, ⟨0, 0, 0, 0, 0⟩⟩)
    ⟨-1, 1, 2⟩ (by decide)

/-- C2 counterexample: in `aliasRaw` the clamped pre-normalization
`activeIndex` is 0 and references `aliasAccA`, which survives filtering
and deduplication at output index 0 (its account key is `" "`), yet the
returned `activeIndex` is 1: the remap matched the trim-aware extracted
key `"x"` (the refresh token of `aliasAccA`) against `aliasAccB`'s
account key, so the claim's "index of that same logical account (matched
by account key)" fails at this input. -/
theorem C2_active_index_counterexample :
    normalizeAccountStorage aliasRaw =
      some ⟨3, [aliasAccA, aliasAccB], 1, ⟨1, 1, 1, 1, 1⟩⟩ ∧
    toAccountKey aliasAccA = " " ∧
    clampIndex ((aliasRaw.activeIndex).getD 0) 2 = 0 := by
  decide

/-- C4 counterexample: normalizing `aliasJunkRaw` yields `activeIndex`
0, but normalizing that output again yields `activeIndex` 1 (the active
account's whitespace `accountId` makes the second pass remap by its
refresh token, which aliases another account's key), so
`normalizeAccountStorage` is not idempotent on its own output. -/
theorem C4_idempotence_counterexample :
    (normalizeAccountStorage aliasJunkRaw).map (fun s => s.activeIndex) = some 0 ∧
    ((normalizeAccountStorage aliasJunkRaw).bind
        fun s => normalizeAccountStorage s.toRaw).map (fun s => s.activeIndex) =
      some 1 := by
  decide

set_option maxRecDepth 40000 in
/-- C7 counterexample: fill the registry with `"k0"`, …, `"k99"`, re-use
`"k0"` (making it the most recently used entry and `"k1"` the least
recently used), then insert the fresh key `"fresh"` at capacity: the
evicted entry is `"k0"` — the first-inserted key — while the
least-recently-used `"k1"` is still present, so the eviction is
insertion-order FIFO, not LRU. -/
theorem C7_lru_counterexample :
    regFull.length = 100 ∧
    (alookup "k0" regFull).isSome = true ∧
    alookup "k0" regAfterEvict = none ∧
    (alookup "k1" regAfterEvict).isSome = true := by
  decide

/-- C7 (amended): the circuit-breaker registry never grows beyond 100
entries — `getCircuitBreaker` preserves the bound — and when a new key
arrives while the registry is at capacity, the evicted entry is the
**first-inserted** one (the head of the Map's insertion order), rather
than the least recently used: lookups do not reorder entries, so recency
of use plays no role in eviction. -/
theorem C7_registry_amended :
    (∀ (reg : List (String × CircuitBreaker)) (key : String)
        (cfg : CircuitBreakerConfig) (now : Int),
      reg.length ≤ MAX_CIRCUIT_BREAKERS →
        (getCircuitBreaker reg key cfg now).2.length ≤ MAX_CIRCUIT_BREAKERS) ∧
    (∀ (reg : List (String × CircuitBreaker)) (key : String)
        (cfg : CircuitBreakerConfig) (now : Int),
      alookup key reg = none → reg.length = MAX_CIRCUIT_BREAKERS →
        (getCircuitBreaker reg key cfg now).2 =
          reg.tail ++ [(key, CircuitBreaker.new cfg now)]) := by
  constructor
  · intro reg key cfg now hle
    unfold getCircuitBreaker
    cases hl : alookup key reg with
    | some b => exact hle
    | none =>
      by_cases hge : reg.length ≥ MAX_CIRCUIT_BREAKERS
      · rw [if_pos hge]
        cases reg with
        | nil => exact absurd hge (by decide)
        | cons p rest =>
          show (rest ++ [(key, CircuitBreaker.new cfg now)]).length ≤ MAX_CIRCUIT_BREAKERS
          simp only [List.length_append, List.length_cons, List.length_nil] at hle ⊢
          omega
      · rw [if_neg hge]
        show (reg ++ [(key, CircuitBreaker.new cfg now)]).length ≤ MAX_CIRCUIT_BREAKERS
        simp only [List.length_append, List.length_cons, List.length_nil]
        omega
  · intro reg key cfg now hl hlen
    unfold getCircuitBreaker
    rw [hl]
    rw [if_pos (by rw [hlen])]
    cases reg with
    | nil => exact absurd hlen (by decide)
    | cons p rest => rfl

set_option maxRecDepth 40000 in
/-- C7 witness: inserting `"fresh"` into the full registry
`regFull = [k0, …, k99]` evicts the head entry `k0`. -/
theorem C7_registry_amended_witness :
    (getCircuitBreaker regFull "fresh" DEFAULT_CIRCUIT_BREAKER_CONFIG 6).2 =
      regFull.tail ++ [("fresh", CircuitBreaker.new DEFAULT_CIRCUIT_BREAKER_CONFIG 6)] :=
  C7_registry_amended.2 regFull "fresh" DEFAULT_CIRCUIT_BREAKER_CONFIG 6
    (by decide) (by decide)

/-- C9 counterexample: two candidates sharing account index 0; the first
candidate's probe succeeds first and wins, yet the second (non-winning)
candidate's cancellation handle is signalled zero times, because the
abort loop skips candidates whose `account.index` equals the winner's. -/
theorem C9_cancel_counterexample :
    (probeAccountsInParallel [0, 0]
        [(0, POutcome.success "a"), (1, POutcome.failure)]).1 =
      some (some (PRes.success 0 "a")) ∧
    (probeAccountsInParallel [0, 0]
        [(0, POutcome.success "a"), (1, POutcome.failure)]).2 1 = 0 := by
  decide

/-- C1: every pool returned by `normalizeAccountStorage` has
pairwise-distinct account keys (`accountId` if present and non-empty,
else `refreshToken`) and pairwise-distinct non-empty trimmed emails; and
the email-deduplication pass keeps every account whose email is missing
or blank. -/
theorem C1_normalize_dedup :
    (∀ (data : Raw) (s : StorageV3), normalizeAccountStorage data = some s →
      KeyDistinct s.accounts ∧ EmailDistinct s.accounts) ∧
    (∀ (l : List Account) (i : Nat) (a : Account),
      l.get? i = some a → emailKey a = none → a ∈ deduplicateAccountsByEmail l) := by
  constructor
  · intro data s h
    obtain ⟨raws, hacc, rfl⟩ := normalize_eq_some data s h
    rw [normalizeCore_accounts]
    constructor
    · exact (deduplicateAccountsByKey_keyDistinct _).sublist
        (deduplicateAccountsByEmail_sublist _)
    · exact deduplicateAccountsByEmail_emailDistinct _
  · exact fun l i a => deduplicateAccountsByEmail_keeps_noEmail l i a

/-- C1 witness: the dedup guarantees at the concrete accepted input
`aliasRaw`, whose output pool is `[aliasAccA, aliasAccB]`. -/
theorem C1_normalize_dedup_witness :
    KeyDistinct [aliasAccA, aliasAccB] ∧ EmailDistinct [aliasAccA, aliasAccB] :=
  C1_normalize_dedup.1 aliasRaw ⟨3, [aliasAccA, aliasAccB], 1, ⟨1, 1, 1, 1, 1⟩⟩ (by decide)

/-- C2 (amended): the active-index remap matches by the trim-aware
*extracted* key of the raw entry at the clamped pre-normalization index
(`accountId` when its trim is non-empty, else `refreshToken` when its
trim is non-empty) — not by the raw account key.  When the extracted key
matches a surviving account's key, the returned `activeIndex` points at
an account carrying exactly that key; when there is no extracted key or
no match, the returned `activeIndex` is the clamped previous index (0
when no accounts survive, since clamping into an empty list yields 0). -/
theorem C2_active_index_amended :
    ∀ (data : Raw) (s : StorageV3) (raws : List RawEntry),
      normalizeAccountStorage data = some s → data.accounts = some raws →
      (∀ k, extractActiveKey raws (clampIndex (data.activeIndex.getD 0) raws.length)
          = some k →
        (∃ j a, s.accounts.get? j = some a ∧ toAccountKey a = k) →
        ∃ j a, s.accounts.get? j = some a ∧ toAccountKey a = k ∧
          s.activeIndex = (j : Int)) ∧
      (∀ k, extractActiveKey raws (clampIndex (data.activeIndex.getD 0) raws.length)
          = some k →
        (∀ j a, s.accounts.get? j = some a → toAccountKey a ≠ k) →
        s.activeIndex =
          clampIndex (clampIndex (data.activeIndex.getD 0) raws.length)
            s.accounts.length) ∧
      (extractActiveKey raws (clampIndex (data.activeIndex.getD 0) raws.length) = none →
        s.activeIndex =
          clampIndex (clampIndex (data.activeIndex.getD 0) raws.length)
            s.accounts.length) := by
  intro data s raws h hacc
  obtain ⟨raws0, hacc0, rfl⟩ := normalize_eq_some data s h
  have hr : raws0 = raws := by
    rw [hacc0] at hacc
    exact Option.some.inj hacc
  subst hr
  refine ⟨?_, ?_, ?_⟩
  · intro k hk ⟨j, a, hg, hka⟩
    rw [normalizeCore_accounts] at hg
    have hfind : findKeyIdx k (deduplicateAccountsByEmail
        (deduplicateAccountsByKey (raws0.filterMap toValidAccount))) ≠ none := by
      intro hn
      exact findKeyIdx_none k _ hn j a hg hka
    obtain ⟨j', hj'⟩ := Option.ne_none_iff_exists'.1 hfind
    obtain ⟨a', hg', hk'⟩ := findKeyIdx_some k _ j' hj'
    have hD0 : (deduplicateAccountsByEmail
        (deduplicateAccountsByKey (raws0.filterMap toValidAccount))).length ≠ 0 := by
      intro h0
      rw [List.length_eq_zero] at h0
      rw [h0] at hg
      simp at hg
    refine ⟨j', a', by rw [normalizeCore_accounts]; exact hg', hk', ?_⟩
    rw [normalizeCore_activeIndex, if_neg hD0, hk]
    dsimp only
    rw [hj']
  · intro k hk hno
    have hfind : findKeyIdx k (deduplicateAccountsByEmail
        (deduplicateAccountsByKey (raws0.filterMap toValidAccount))) = none := by
      cases hf : findKeyIdx k (deduplicateAccountsByEmail
          (deduplicateAccountsByKey (raws0.filterMap toValidAccount))) with
      | none => rfl
      | some j =>
        obtain ⟨a, hg, hka⟩ := findKeyIdx_some k _ j hf
        exact absurd hka (hno j a (by rw [normalizeCore_accounts]; exact hg))
    rw [normalizeCore_activeIndex, normalizeCore_accounts]
    by_cases hD0 : (deduplicateAccountsByEmail
        (deduplicateAccountsByKey (raws0.filterMap toValidAccount))).length = 0
    · rw [if_pos hD0, hD0, clampIndex_zero]
    · rw [if_neg hD0, hk]
      dsimp only
      rw [hfind]
  · intro hk
    rw [normalizeCore_activeIndex, normalizeCore_accounts]
    by_cases hD0 : (deduplicateAccountsByEmail
        (deduplicateAccountsByKey (raws0.filterMap toValidAccount))).length = 0
    · rw [if_pos hD0, hD0, clampIndex_zero]
    · rw [if_neg hD0, hk]

/-- C2 witness: the amended remap at a one-account input whose extracted
active key `"B"` matches the surviving account. -/
theorem C2_active_index_amended_witness :
    ∃ j a, [scenarioV1Acc3].get? j = some a ∧ toAccountKey a = "B" ∧
      (0 : Int) = (j : Int) :=
  (C2_active_index_amended ⟨some 3, some [.acc scenarioV1Acc3], some 0, none⟩
      ⟨3, [scenarioV1Acc3], 0, ⟨0, 0, 0, 0, 0⟩⟩ [.acc scenarioV1Acc3]
      (by decide) rfl).1 "B" (by decide) ⟨0, scenarioV1Acc3, rfl, by decide⟩

/-- C4 (amended): `normalizeAccountStorage` is idempotent on its own
output provided no surviving account carries a whitespace-only
`accountId` (the condition `GoodId`, under which the trim-aware active
key extraction agrees with the dedup key).  The counterexample shows the
proviso is necessary: without it the active index can be remapped again
on the second pass. -/
theorem C4_idempotence_amended :
    ∀ (data : Raw) (s s' : StorageV3),
      normalizeAccountStorage data = some s →
      (∀ a ∈ s.accounts, GoodId a) →
      normalizeAccountStorage s.toRaw = some s' →
      s' = s := by
  intro data s s' h hgood h'
  obtain ⟨raws, hacc, rfl⟩ := normalize_eq_some data s h
  have hvalid : ∀ a ∈ (normalizeCore data raws).accounts, ValidAccount a := by
    intro a ha
    rw [normalizeCore_accounts] at ha
    exact mem_filterMap_toValid _ _ ((deduplicateAccountsByKey_sublist _).subset
      ((deduplicateAccountsByEmail_sublist _).subset ha))
  have hkd : KeyDistinct (normalizeCore data raws).accounts := by
    rw [normalizeCore_accounts]
    exact (deduplicateAccountsByKey_keyDistinct _).sublist
      (deduplicateAccountsByEmail_sublist _)
  have hed : EmailDistinct (normalizeCore data raws).accounts := by
    rw [normalizeCore_accounts]
    exact deduplicateAccountsByEmail_emailDistinct _
  have hair := normalizeCore_activeIndex_range data raws
  have hfix : normalizeAccountStorage
      (StorageV3.toRaw (normalizeCore data raws)) = some (normalizeCore data raws) :=
    normalize_fixpoint (normalizeCore data raws).accounts
      (normalizeCore data raws).activeIndex
      (normalizeCore data raws).activeIndexByFamily
      hvalid hgood hkd hed hair.2.1 (fun hp => ⟨hair.1, hair.2.2 hp⟩)
      (fun f => (normalizeCore_fam_range data raws f).1)
      (fun f => (normalizeCore_fam_range data raws f).2)
  rw [hfix] at h'
  exact (Option.some.inj h').symm

/-- C4 witness: the amended idempotence applied to a one-account pool
whose `accountId` is well-formed. -/
theorem C4_idempotence_amended_witness :
    (⟨3, [scenarioV1Acc3], 0, ⟨0, 0, 0, 0, 0⟩⟩ : StorageV3) =
      ⟨3, [scenarioV1Acc3], 0, ⟨0, 0, 0, 0, 0⟩⟩ :=
  C4_idempotence_amended ⟨some 3, some [.acc scenarioV1Acc3], some 0, none⟩
    ⟨3, [scenarioV1Acc3], 0, ⟨0, 0, 0, 0, 0⟩⟩
    ⟨3, [scenarioV1Acc3], 0, ⟨0, 0, 0, 0, 0⟩⟩
    (by decide)
    (by
      intro a ha id hid hne
      have hae : a = scenarioV1Acc3 := by simpa using ha
      rw [hae] at hid
      have hide : id = "B" := by
        have := Option.some.inj hid
        rw [← this]
      rw [hide]
      decide)
    (by decide)

/-- C9 (amended): with two or more candidates, the race resolves with the
first candidate whose probe succeeds (later completions never replace the
winner), and at that moment a candidate's cancellation handle is
signalled exactly once **iff its account index differs from the
winner's** — a non-winning candidate sharing the winner's `account.index`
is never signalled (the abort loop compares account indices).  If all
candidates fail, the call resolves `null`, as it does for an empty
candidate list. -/
theorem C9_probe_amended :
    (∀ (T : Type) (cands : List Nat) (pre post : List (Nat × POutcome T)) (j : Nat)
        (v : T) (aj : Nat),
      2 ≤ cands.length →
      cands.get? j = some aj →
      (∀ e ∈ pre, e.2 = POutcome.failure) →
      (pre.map Prod.fst).Nodup →
      (∀ p ∈ pre.map Prod.fst, p < cands.length ∧ p ≠ j) →
      (probeAccountsInParallel cands (pre ++ (j, POutcome.success v) :: post)).1 =
          some (some (PRes.success aj v)) ∧
        ∀ p ap, cands.get? p = some ap →
          (probeAccountsInParallel cands (pre ++ (j, POutcome.success v) :: post)).2 p =
            if ap = aj then 0 else 1) ∧
    (∀ (T : Type) (cands : List Nat) (evs : List (Nat × POutcome T)),
      2 ≤ cands.length →
      (∀ e ∈ evs, e.2 = POutcome.failure) →
      evs.length = cands.length →
      (probeAccountsInParallel cands evs).1 = some none) ∧
    (∀ (T : Type) (evs : List (Nat × POutcome T)),
      (probeAccountsInParallel ([] : List Nat) evs).1 = some none) := by
  have hunfold : ∀ (T : Type) (c1 c2 : Nat) (rest : List Nat)
      (evs : List (Nat × POutcome T)),
      probeAccountsInParallel (c1 :: c2 :: rest) evs =
        ((probeRace (c1 :: c2 :: rest) evs).resolvedVal.map
          (Option.map fun r => PRes.success r.1 r.2),
         (probeRace (c1 :: c2 :: rest) evs).aborts) := fun _ _ _ _ _ => rfl
  refine ⟨?_, ?_, ?_⟩
  · intro T cands pre post j v aj hlen hj hall hnodup hbound
    cases cands with
    | nil => simp at hlen
    | cons c1 t =>
      cases t with
      | nil => simp at hlen
      | cons c2 rest =>
        have hjlt : j < (c1 :: c2 :: rest).length := (List.get?_eq_some.1 hj).1
        have hsub : pre.map Prod.fst ⊆ (List.range (c1 :: c2 :: rest).length).erase j := by
          intro p hp
          exact (List.mem_erase_of_ne (hbound p hp).2).2 (List.mem_range.2 (hbound p hp).1)
        have hsp := (hnodup.subperm hsub).length_le
        have hlenerase : ((List.range (c1 :: c2 :: rest).length).erase j).length =
            (c1 :: c2 :: rest).length - 1 := by
          rw [List.length_erase_of_mem (List.mem_range.2 hjlt), List.length_range]
        have hprelt : pre.length < (c1 :: c2 :: rest).length := by
          have hpm : (pre.map Prod.fst).length = pre.length := List.length_map _ _
          omega
        have hst1 : pre.foldl (processEvent (c1 :: c2 :: rest)) (raceInit T) =
            ⟨none, pre.length, none, fun _ => 0⟩ := by
          have := probeFold_failures (c1 :: c2 :: rest) pre (raceInit T) hall rfl rfl
            (by dsimp only [raceInit]; omega)
          simpa [raceInit] using this
        have hst2 : processEvent (c1 :: c2 :: rest)
            (⟨none, pre.length, none, fun _ => 0⟩ : RaceSt T) (j, POutcome.success v) =
            ⟨some (j, v), pre.length, some (some (aj, v)),
              fun p => (fun _ => 0 : Nat → Nat) p +
                if ((c1 :: c2 :: rest).get? p).isSome ∧
                  (c1 :: c2 :: rest).get? p ≠ some aj then 1 else 0⟩ :=
          processEvent_success_none _ _ _ _ _ _ hj
        have hrace : probeRace (c1 :: c2 :: rest) (pre ++ (j, POutcome.success v) :: post) =
            post.foldl (processEvent (c1 :: c2 :: rest))
              ⟨some (j, v), pre.length, some (some (aj, v)),
                fun p => (fun _ => 0 : Nat → Nat) p +
                  if ((c1 :: c2 :: rest).get? p).isSome ∧
                    (c1 :: c2 :: rest).get? p ≠ some aj then 1 else 0⟩ := by
          unfold probeRace
          rw [List.foldl_append, hst1]
          rw [List.foldl_cons, hst2]
        have hfin := probeFold_after_winner (c1 :: c2 :: rest) post
          (⟨some (j, v), pre.length, some (some (aj, v)),
            fun p => (fun _ => 0 : Nat → Nat) p +
              if ((c1 :: c2 :: rest).get? p).isSome ∧
                (c1 :: c2 :: rest).get? p ≠ some aj then 1 else 0⟩ : RaceSt T) rfl
        constructor
        · rw [hunfold]
          dsimp only
          rw [hrace, hfin.2.1]
          rfl
        · intro p ap hp
          rw [hunfold]
          dsimp only
          rw [hrace, hfin.2.2]
          dsimp only
          rw [hp]
          by_cases hap : ap = aj
          · rw [if_pos hap, if_neg]
            intro hc
            exact hc.2 (by rw [hap])
          · rw [if_neg hap, if_pos]
            exact ⟨rfl, fun hc => hap (Option.some.inj hc)⟩
  · intro T cands evs hlen hall hleneq
    cases cands with
    | nil => simp at hlen
    | cons c1 t =>
      cases t with
      | nil => simp at hlen
      | cons c2 rest =>
        rw [hunfold]
        dsimp only
        have hevne : evs ≠ [] := by
          intro he
          rw [he] at hleneq
          simp at hleneq
        have := probeFold_failures_exact (c1 :: c2 :: rest) evs (raceInit T) hall rfl rfl
          (by dsimp only [raceInit]; omega) hevne
        unfold probeRace
        rw [this]
        rfl
  · intro T evs
    rfl

/-- C9 witness: two candidates with distinct account indices 5 and 7;
candidate 0 fails, candidate 1 succeeds with `"w"`: the race resolves
with candidate 1's success, the loser is signalled once, the winner not
at all. -/
theorem C9_probe_amended_witness :
    (probeAccountsInParallel [5, 7]
        [(0, POutcome.failure), (1, POutcome.success "w")]).1 =
      some (some (PRes.success 7 "w")) ∧
    (probeAccountsInParallel [5, 7]
        [(0, POutcome.failure), (1, POutcome.success "w")]).2 0 = 1 ∧
    (probeAccountsInParallel [5, 7]
        [(0, POutcome.failure), (1, POutcome.success "w")]).2 1 = 0 := by
  have h := C9_probe_amended.1 String [5, 7] [(0, POutcome.failure)] [] 1 "w" 7
    (by decide) rfl (by decide) (by decide) (by decide)
  refine ⟨h.1, ?_, ?_⟩
  · have h2 := h.2 0 5 rfl
    simpa using h2
  · have h2 := h.2 1 7 rfl
    simpa using h2

end OCAuth
